import Mathlib

/-!
Verification of the Nexus neural key exchange backend.

The Python sources are shallowly embedded: weight matrices are
`List (List Int)` (row-major, `K` rows of `N` entries), byte strings are
`List Nat` with every element `< 256`, floats on the progress path are
modelled by `ℚ`, and every random draw (initial weights, round inputs,
GCM nonces) is passed in explicitly as an oracle argument.
-/

namespace Nexus

/-- The `LearningRule` literal type of `tpm.py`. -/
inductive LearningRule
  | hebbian
  | anti_hebbian
  | random_walk
deriving DecidableEq, Repr

/-- `np.clip(v, -L, L)` on integers: values below `-L` go to `-L`, above `L` to `L`. -/
def clip (L v : Int) : Int := min (max v (-L)) L

/-- `np.sign` followed by the source's replacement of zeros by `1`
(`sigma[sigma == 0] = 1` in `TreeParityMachine.compute_output`). -/
def signConv (h : Int) : Int :=
  let s : Int := if 0 < h then 1 else if h < 0 then -1 else 0
  if s = 0 then 1 else s

/-- One entry of `np.sum(X * self.weights, axis=1)`: the local field of a hidden
neuron with input row `x` and weight row `w`. -/
def localField (x w : List Int) : Int := (List.zipWith (· * ·) x w).sum

/-- `TreeParityMachine.compute_output`: returns `(tau, sigma)` where
`sigma k = sign(Σ_n X[k,n]·W[k,n])` (zeros mapped to `1`) and `tau = Π_k sigma k`. -/
def compute_output (W X : List (List Int)) : Int × List Int :=
  let sigma := List.zipWith (fun x w => signConv (localField x w)) X W
  (sigma.prod, sigma)

/-- The body of the `update_weights` loop for one row `k` with `sigma[k] = tau`:
apply the learning rule to the whole row, then `np.clip` it into `[-L, L]`. -/
def updateRow (L : Int) (rule : LearningRule) (w x : List Int) (sk : Int) : List Int :=
  match rule with
  | .hebbian => List.zipWith (fun wi xi => clip L (wi + xi * sk)) w x
  | .anti_hebbian => List.zipWith (fun wi xi => clip L (wi - xi * sk)) w x
  | .random_walk => List.zipWith (fun wi xi => clip L (wi + xi)) w x

/-- Three-list `zipWith`, used to run the `for k in range(self.K)` loop of
`update_weights` over the rows of `W`, `X` and the entries of `sigma`. -/
def zipW3 (f : α → β → γ → δ) : List α → List β → List γ → List δ
  | a :: as, b :: bs, c :: cs => f a b c :: zipW3 f as bs cs
  | _, _, _ => []

/-- `TreeParityMachine.update_weights`: returns the Python method's boolean
result together with the new weight matrix (state passed explicitly).
If `tau_self ≠ tau_other` nothing happens and the result is `false`; otherwise
every row whose `sigma[k]` equals the common `tau` is updated and clipped. -/
def update_weights (L : Int) (W X : List (List Int)) (tauSelf tauOther : Int)
    (sigma : List Int) (rule : LearningRule) : Bool × List (List Int) :=
  if tauSelf ≠ tauOther then (false, W)
  else
    (true, zipW3 (fun w x sk => if sk = tauSelf then updateRow L rule w x sk else w) W X sigma)

/-- Model of one scalar draw of `np.random.randint(lo, hi)`: whatever the RNG
word `r` is, the value `lo + (r mod (hi - lo))` lies in `[lo, hi)`. -/
def randint (lo hi : Int) (r : Nat) : Int := lo + (r % (hi - lo))

/-- `TreeParityMachine.__init__`: `np.random.randint(-L, L + 1, size=(K, N))`,
with the RNG draws supplied explicitly as the oracle `draws`. -/
def initWeights (K N : Nat) (L : Int) (draws : Nat → Nat → Nat) : List (List Int) :=
  (List.range K).map fun k => (List.range N).map fun n => randint (-L) (L + 1) (draws k n)

/-- Every entry of the matrix lies in `[-L, L]`. -/
def InRange (L : Int) (W : List (List Int)) : Prop :=
  ∀ row ∈ W, ∀ v ∈ row, -L ≤ v ∧ v ≤ L

instance (L : Int) (W : List (List Int)) : Decidable (InRange L W) := by
  unfold InRange; infer_instance

/-- `np.sum(np.abs(Wa - Wb))` for two matrices. -/
def sumAbsDiff (Wa Wb : List (List Int)) : Int :=
  (List.zipWith (fun ra rb => (List.zipWith (fun a b => |a - b|) ra rb).sum) Wa Wb).sum

/-- The progress computation of `ConnectionManager._run_sync`:
`1.0 - weight_diff / max_possible_diff if max_possible_diff > 0 else 1.0`
with `max_possible_diff = K * N * (2 * L)`.  Python floats are modelled by `ℚ`. -/
def progressFormula (K N L : Nat) (Wa Wb : List (List Int)) : ℚ :=
  let maxDiff : Int := (K : Int) * N * (2 * L)
  if 0 < maxDiff then 1 - (sumAbsDiff Wa Wb : ℚ) / (maxDiff : ℚ) else 1

/-- One `(k, n)` position of the direct-convergence part of the end-game assist:
if the two weights differ by exactly `1`, both become the clipped middle value
`min a b + 1` (written as the source's `if a < b then a + 1 else b + 1`). -/
def convergePair (L a b : Int) : Int × Int :=
  if |a - b| = 1 then
    if |b - a| = 1 then
      let mid := if a < b then a + 1 else b + 1
      let mid := clip L mid
      (mid, mid)
    else (a, b)
  else (a, b)

/-- The `progress >= 0.90` direct-convergence sweep of `_run_sync`, applied
pointwise over the two matrices. -/
def directConverge (L : Int) (Wa Wb : List (List Int)) :
    List (List Int) × List (List Int) :=
  let rows := List.zipWith (fun ra rb => List.zipWith (fun a b => convergePair L a b) ra rb) Wa Wb
  (rows.map (fun r => r.map Prod.fst), rows.map (fun r => r.map Prod.snd))

/-- One row of the boost part of the end-game assist: the standard update with
step `step`, clipped; only the `hebbian` and `random_walk` branches exist. -/
def boostRow (L : Int) (rule : LearningRule) (step : Int) (w x : List Int) (sk : Int) :
    List Int :=
  match rule with
  | .hebbian => List.zipWith (fun wi xi => clip L (wi + step * xi * sk)) w x
  | .random_walk => List.zipWith (fun wi xi => clip L (wi + step * xi)) w x
  | .anti_hebbian => w

/-- The boost loop of the end-game assist for one party: rows whose hidden
output `sigma[k]` equals that party's `tau` get the enlarged update. -/
def boost (L : Int) (rule : LearningRule) (step : Int) (W X : List (List Int))
    (sigma : List Int) (tau : Int) : List (List Int) :=
  zipW3 (fun w x sk => if sk = tau then boostRow L rule step w x sk else w) W X sigma

/-- The complete end-game convergence assist of `_run_sync` (the
`progress >= 0.85 and not weights_match` block), as a pure function of the
round context.  `agreed` is `tau_a == tau_b` of the current round. -/
def endgameAssist (L : Int) (rule : LearningRule) (agreed : Bool)
    (X : List (List Int)) (sigA sigB : List Int) (tauA tauB : Int)
    (Wa Wb : List (List Int)) (progress : ℚ) : List (List Int) × List (List Int) :=
  if progress ≥ 0.85 ∧ Wa ≠ Wb then
    let p1 := if progress ≥ 0.90 then directConverge L Wa Wb else (Wa, Wb)
    if agreed ∧ progress ≥ 0.85 then
      let step : Int := if progress ≥ 0.90 then 2 else 1
      (boost L rule step p1.1 X sigA tauA, boost L rule step p1.2 X sigB tauB)
    else p1
  else (Wa, Wb)

/-! ### SHA-256 (the `hashlib.sha256` the sources call), over byte lists -/

/-- Truncation to a 32-bit word. -/
def m32 (n : Nat) : Nat := n % 4294967296

/-- Right rotation of a 32-bit word. -/
def rotr32 (n k : Nat) : Nat := m32 ((n >>> k) ||| (n <<< (32 - k)))

/-- SHA-256 `Ch(e, f, g)`; the complement is taken inside 32 bits. -/
def shaCh (e f g : Nat) : Nat := (e &&& f) ^^^ ((e ^^^ 4294967295) &&& g)

/-- SHA-256 `Maj(a, b, c)`. -/
def shaMaj (a b c : Nat) : Nat := (a &&& b) ^^^ (a &&& c) ^^^ (b &&& c)

/-- SHA-256 `Σ0`. -/
def bigSigma0 (x : Nat) : Nat := rotr32 x 2 ^^^ rotr32 x 13 ^^^ rotr32 x 22

/-- SHA-256 `Σ1`. -/
def bigSigma1 (x : Nat) : Nat := rotr32 x 6 ^^^ rotr32 x 11 ^^^ rotr32 x 25

/-- SHA-256 `σ0`. -/
def smallSigma0 (x : Nat) : Nat := rotr32 x 7 ^^^ rotr32 x 18 ^^^ (x >>> 3)

/-- SHA-256 `σ1`. -/
def smallSigma1 (x : Nat) : Nat := rotr32 x 17 ^^^ rotr32 x 19 ^^^ (x >>> 10)

/-- The 64 SHA-256 round constants. -/
def shaK : List Nat :=
  [1116352408, 1899447441, 3049323471, 3921009573, 961987163, 1508970993, 2453635748,
   2870763221, 3624381080, 310598401, 607225278, 1426881987, 1925078388, 2162078206,
   2614888103, 3248222580, 3835390401, 4022224774, 264347078, 604807628, 770255983,
   1249150122, 1555081692, 1996064986, 2554220882, 2821834349, 2952996808, 3210313671,
   3336571891, 3584528711, 113926993, 338241895, 666307205, 773529912, 1294757372,
   1396182291, 1695183700, 1986661051, 2177026350, 2456956037, 2730485921, 2820302411,
   3259730800, 3345764771, 3516065817, 3600352804, 4094571909, 275423344, 430227734,
   506948616, 659060556, 883997877, 958139571, 1322822218, 1537002063, 1747873779,
   1955562222, 2024104815, 2227730452, 2361852424, 2428436474, 2756734187, 3204031479,
   3329325298]

/-- The 8-word SHA-256 running state. -/
structure Hash8 where
  a : Nat
  b : Nat
  c : Nat
  d : Nat
  e : Nat
  f : Nat
  g : Nat
  h : Nat
deriving DecidableEq, Repr

/-- The SHA-256 initial hash value. -/
def shaH0 : Hash8 :=
  ⟨1779033703, 3144134277, 1013904242, 2773480762, 1359893119, 2600822924, 528734635,
   1541459225⟩

/-- One round of the SHA-256 compression function. -/
def shaRound (st : Hash8) (k w : Nat) : Hash8 :=
  let t1 := m32 (st.h + bigSigma1 st.e + shaCh st.e st.f st.g + k + w)
  let t2 := m32 (bigSigma0 st.a + shaMaj st.a st.b st.c)
  ⟨m32 (t1 + t2), st.a, st.b, st.c, m32 (st.d + t1), st.e, st.f, st.g⟩

/-- Message-schedule extension: append `n` further words `w_i` computed from
`σ1(w_{i-2}) + w_{i-7} + σ0(w_{i-15}) + w_{i-16}`. -/
def extendW (w : List Nat) : Nat → List Nat
  | 0 => w
  | n + 1 =>
    let i := w.length
    extendW (w ++ [m32 (smallSigma1 (w.getD (i - 2) 0) + w.getD (i - 7) 0 +
      smallSigma0 (w.getD (i - 15) 0) + w.getD (i - 16) 0)]) n

/-- Compression of one 16-word block into the running state. -/
def compressBlock (st : Hash8) (block : List Nat) : Hash8 :=
  let ws := extendW block 48
  let fin := (List.zip shaK ws).foldl (fun s p => shaRound s p.1 p.2) st
  ⟨m32 (st.a + fin.a), m32 (st.b + fin.b), m32 (st.c + fin.c), m32 (st.d + fin.d),
   m32 (st.e + fin.e), m32 (st.f + fin.f), m32 (st.g + fin.g), m32 (st.h + fin.h)⟩

/-- Big-endian 8-byte encoding of a (64-bit) number. -/
def be8Bytes (n : Nat) : List Nat := (List.range 8).map fun i => n / 2 ^ (8 * (7 - i)) % 256

/-- SHA-256 padding: `0x80`, zeros to 56 mod 64, then the bit length, big-endian. -/
def padMsg (msg : List Nat) : List Nat :=
  let l := msg.length
  let zeros := (64 - (l + 9) % 64) % 64
  msg ++ [128] ++ List.replicate zeros 0 ++ be8Bytes (8 * l)

/-- Parse a byte list into big-endian 32-bit words (groups of 4). -/
def bytesToWordsBE : List Nat → List Nat
  | b0 :: b1 :: b2 :: b3 :: rest => (((b0 * 256 + b1) * 256 + b2) * 256 + b3) :: bytesToWordsBE rest
  | _ => []

/-- Split a word list into 16-word blocks (`fuel` bounds the recursion). -/
def chunk16 (fuel : Nat) (ws : List Nat) : List (List Nat) :=
  match fuel with
  | 0 => []
  | fuel + 1 => if ws = [] then [] else ws.take 16 :: chunk16 fuel (ws.drop 16)

/-- Big-endian 4-byte encoding of a 32-bit word. -/
def wordBytesBE (w : Nat) : List Nat :=
  [w / 16777216 % 256, w / 65536 % 256, w / 256 % 256, w % 256]

/-- SHA-256 of a byte list, as the 32-byte digest. -/
def sha256 (msg : List Nat) : List Nat :=
  let ws := bytesToWordsBE (padMsg msg)
  let st := (chunk16 ws.length ws).foldl compressBlock shaH0
  wordBytesBE st.a ++ wordBytesBE st.b ++ wordBytesBE st.c ++ wordBytesBE st.d ++
    wordBytesBE st.e ++ wordBytesBE st.f ++ wordBytesBE st.g ++ wordBytesBE st.h

/-! ### TPM key derivation (`TreeParityMachine.get_key`) -/

/-- `self.weights.astype(np.int32).tobytes()`: row-major traversal, each weight
wrapped into 32 bits and emitted as 4 little-endian bytes. -/
def int32LE (v : Int) : List Nat :=
  let u := (v % 4294967296).toNat
  [u % 256, u / 256 % 256, u / 65536 % 256, u / 16777216 % 256]

/-- The serialization `tobytes` applied to the whole weight matrix. -/
def tobytesInt32 (W : List (List Int)) : List Nat := W.flatten.flatMap int32LE

/-- `TreeParityMachine.get_key`: the first `len` bytes of the SHA-256 digest of
the weight serialization. -/
def get_key (len : Nat) (W : List (List Int)) : List Nat :=
  (sha256 (tobytesInt32 W)).take len

/-- The spec's serialization, written from its words: "emits each weight as a
little-endian 32-bit signed integer in row-major order" (two's complement). -/
def serializeSpec (W : List (List Int)) : List Nat :=
  W.flatten.flatMap fun v =>
    let u := if 0 ≤ v then v.toNat else (v + 4294967296).toNat
    [u % 256, u / 256 % 256, u / 65536 % 256, u / 16777216 % 256]

/-! ### One round of `ConnectionManager._run_sync` (`handler.py`) -/

/-- The per-round values `_run_sync` computes and reports in its
`sync_progress` frame; attacker fields are present only when Eve exists. -/
structure RoundData where
  tau_a : Int
  tau_b : Int
  agreed : Bool
  progress : ℚ
  attacker_progress : Option ℚ
  attacker_tau : Option Int
  attacker_synced : Option Bool
  weights_match : Bool
deriving DecidableEq, Repr

/-- Result of one loop iteration: the two participants' new weights, the
attacker's new weights (if present), and the reported round data. -/
structure RoundOut where
  wa : List (List Int)
  wb : List (List Int)
  att : Option (List (List Int))
  data : RoundData
deriving DecidableEq, Repr

/-- One iteration of the `while True` body of `_run_sync`, as a pure function:
forward passes, the two participant updates, the eavesdropper step (she updates
only on `tau_a == tau_b`, using her own `sigma_eve`, and only her own weights
are written), progress, the end-game assist with its recomputation, and the
equality test that drives `sync_complete`. -/
def syncRoundCore (K N L : Nat) (rule : LearningRule)
    (Wa Wb : List (List Int)) (att : Option (List (List Int)))
    (X : List (List Int)) : RoundOut :=
  let oA := compute_output Wa X
  let oB := compute_output Wb X
  let tauA := oA.1
  let sigA := oA.2
  let tauB := oB.1
  let sigB := oB.2
  let agreed := decide (tauA = tauB)
  let Wa1 := (update_weights (L : Int) Wa X tauA tauB sigA rule).2
  let Wb1 := (update_weights (L : Int) Wb X tauB tauA sigB rule).2
  let attPart : Option (List (List Int)) × Option ℚ × Option Int × Option Bool :=
    match att with
    | none => (none, none, none, none)
    | some We =>
      let oE := compute_output We X
      let We1 :=
        if tauA = tauB then (update_weights (L : Int) We X oE.1 tauA oE.2 rule).2 else We
      (some We1, some (progressFormula K N L We1 Wa1), some oE.1, some (decide (We1 = Wa1)))
  let weightsMatch1 := decide (Wa1 = Wb1)
  let progress1 := progressFormula K N L Wa1 Wb1
  let assisted := endgameAssist (L : Int) rule agreed X sigA sigB tauA tauB Wa1 Wb1 progress1
  let progress2 :=
    if progress1 ≥ 0.85 ∧ Wa1 ≠ Wb1 then progressFormula K N L assisted.1 assisted.2
    else progress1
  let weightsMatch2 :=
    if progress1 ≥ 0.85 ∧ Wa1 ≠ Wb1 then decide (assisted.1 = assisted.2) else weightsMatch1
  ⟨assisted.1, assisted.2, attPart.1,
    ⟨tauA, tauB, agreed, progress2, attPart.2.1, attPart.2.2.1, attPart.2.2.2, weightsMatch2⟩⟩

/-- Iterated sync rounds over an explicit per-round schedule of learning rules
and inputs (the adaptive rule switching depends only on participant progress,
so the schedule is the same with or without the attacker). -/
def runRounds (K N L : Nat) :
    List (LearningRule × List (List Int)) →
    List (List Int) × List (List Int) × Option (List (List Int)) →
    List (List Int) × List (List Int) × Option (List (List Int))
  | [], s => s
  | (rule, X) :: rest, (Wa, Wb, att) =>
    let o := syncRoundCore K N L rule Wa Wb att X
    runRounds K N L rest (o.wa, o.wb, o.att)

/-- The per-round participant weight pairs along a schedule. -/
def roundTrace (K N L : Nat) :
    List (LearningRule × List (List Int)) →
    List (List Int) × List (List Int) × Option (List (List Int)) →
    List (List (List Int) × List (List Int))
  | [], _ => []
  | (rule, X) :: rest, (Wa, Wb, att) =>
    let o := syncRoundCore K N L rule Wa Wb att X
    (o.wa, o.wb) :: roundTrace K N L rest (o.wa, o.wb, o.att)

/-- `W.length = K` and every row has length `N`. -/
def Dims (K N : Nat) (W : List (List Int)) : Prop :=
  W.length = K ∧ ∀ row ∈ W, row.length = N

instance (K N : Nat) (W : List (List Int)) : Decidable (Dims K N W) := by
  unfold Dims; infer_instance

/-! ### `NeuralSyncProtocol` (`sync.py`) -/

/-- `SyncState` of `sync.py` (the `key_hash` display field is omitted: it is
a hex rendering of `get_key` and never read by the protocol). -/
structure SyncState where
  round : Nat
  agreements : Nat
  is_synced : Bool
deriving DecidableEq, Repr

/-- `SyncRoundResult` of `sync.py` (the RNG bookkeeping field `input_seed`
is omitted; the input `X` is passed explicitly). -/
structure SyncRoundResult where
  round : Nat
  tau_a : Int
  tau_b : Int
  agreed : Bool
  sync_progress : ℚ
  weights_match : Bool
deriving DecidableEq, Repr

/-- `NeuralSyncProtocol._calculate_progress`: a blend of the agreement rate and
mean weight similarity, capped at `0.99` while unsynchronized. -/
def calculate_progress (K N L : Nat) (st : SyncState) (Wa Wb : List (List Int)) : ℚ :=
  if st.round = 0 then 0
  else
    let agreement_rate : ℚ := (st.agreements : ℚ) / (st.round : ℚ)
    let max_diff : ℚ := (L : ℚ) * 2
    let similarity : ℚ := 1 - (sumAbsDiff Wa Wb : ℚ) / ((K : ℚ) * (N : ℚ)) / max_diff
    let progress := agreement_rate * 0.3 + similarity * 0.7
    if st.is_synced then 1 else min progress 0.99

/-- `NeuralSyncProtocol.run_round` on an explicit input `X` (the method's
`RuntimeError` guard for an already-synced state is a precondition here):
forward passes, agreement counting, both updates, the synchronization check,
and the blended progress estimate of the returned `SyncRoundResult`. -/
def run_round (K N L : Nat) (rule : LearningRule) (st : SyncState)
    (Wa Wb : List (List Int)) (X : List (List Int)) :
    SyncState × List (List Int) × List (List Int) × SyncRoundResult :=
  let oA := compute_output Wa X
  let oB := compute_output Wb X
  let agreed := decide (oA.1 = oB.1)
  let st1 := if agreed then { st with agreements := st.agreements + 1 } else st
  let Wa1 := (update_weights (L : Int) Wa X oA.1 oB.1 oA.2 rule).2
  let Wb1 := (update_weights (L : Int) Wb X oB.1 oA.1 oB.2 rule).2
  let weightsMatch := decide (Wa1 = Wb1)
  let st2 := if weightsMatch then { st1 with is_synced := true } else st1
  let st3 := { st2 with round := st2.round + 1 }
  let prog := calculate_progress K N L st3 Wa1 Wb1
  (st3, Wa1, Wb1, ⟨st3.round, oA.1, oB.1, agreed, prog, weightsMatch⟩)

/-! ### `NeuralCipher.__init__` key normalization (`encryption.py`) -/

/-- `NeuralCipher.__init__`: keys shorter than 32 bytes are replaced by their
SHA-256 digest, then truncated to 32 bytes. -/
def cipherKey (key : List Nat) : List Nat :=
  (if key.length < 32 then sha256 key else key).take 32

/-! ### Base64 (`base64.b64encode` / `b64decode`), over byte and char lists -/

/-- The base64 alphabet as ASCII codes (`A-Z`, `a-z`, `0-9`, `+`, `/`). -/
def b64chars : List Nat :=
  [65, 66, 67, 68, 69, 70, 71, 72, 73, 74, 75, 76, 77, 78, 79, 80, 81, 82, 83, 84,
   85, 86, 87, 88, 89, 90, 97, 98, 99, 100, 101, 102, 103, 104, 105, 106, 107, 108,
   109, 110, 111, 112, 113, 114, 115, 116, 117, 118, 119, 120, 121, 122, 48, 49, 50,
   51, 52, 53, 54, 55, 56, 57, 43, 47]

/-- Encode one 6-bit value as its base64 character code. -/
def b64enc (d : Nat) : Nat := b64chars.getD d 0

/-- Decode one base64 character code back to its 6-bit value. -/
def b64dec (c : Nat) : Option Nat :=
  if 65 ≤ c ∧ c ≤ 90 then some (c - 65)
  else if 97 ≤ c ∧ c ≤ 122 then some (c - 97 + 26)
  else if 48 ≤ c ∧ c ≤ 57 then some (c - 48 + 52)
  else if c = 43 then some 62
  else if c = 47 then some 63
  else none

/-- `base64.b64encode`: groups of three bytes become four characters; the
one- and two-byte tails are padded with `=` (code 61). -/
def b64encode : List Nat → List Nat
  | [] => []
  | [a] => [b64enc (a / 4), b64enc (a % 4 * 16), 61, 61]
  | [a, b] => [b64enc (a / 4), b64enc (a % 4 * 16 + b / 16), b64enc (b % 16 * 4), 61]
  | a :: b :: c :: rest =>
    b64enc (a / 4) :: b64enc (a % 4 * 16 + b / 16) :: b64enc (b % 16 * 4 + c / 64)
      :: b64enc (c % 64) :: b64encode rest

/-- `base64.b64decode` on well-formed input (groups of four characters with
`=`-padding only in a final group); malformed input yields `none`, modelling
the raised `binascii.Error`. -/
def b64decode : List Nat → Option (List Nat)
  | [] => some []
  | c1 :: c2 :: c3 :: c4 :: rest =>
    match b64dec c1, b64dec c2 with
    | some d1, some d2 =>
      if c3 = 61 then
        if c4 = 61 ∧ rest = [] then some [d1 * 4 + d2 / 16] else none
      else
        match b64dec c3 with
        | some d3 =>
          if c4 = 61 then
            if rest = [] then some [d1 * 4 + d2 / 16, d2 % 16 * 16 + d3 / 4] else none
          else
            match b64dec c4 with
            | some d4 =>
              match b64decode rest with
              | some bs => some ((d1 * 4 + d2 / 16) :: (d2 % 16 * 16 + d3 / 4)
                  :: (d3 % 4 * 64 + d4) :: bs)
              | none => none
            | none => none
        | none => none
    | _, _ => none
  | _ => none

/-! ### AES-256 (the `Crypto.Cipher.AES` block cipher), bytes as `Nat < 256` -/

/-- The AES S-box. -/
def sbox : List Nat :=
  [99, 124, 119, 123, 242, 107, 111, 197, 48, 1, 103, 43, 254, 215, 171, 118, 202,
   130, 201, 125, 250, 89, 71, 240, 173, 212, 162, 175, 156, 164, 114, 192, 183,
   253, 147, 38, 54, 63, 247, 204, 52, 165, 229, 241, 113, 216, 49, 21, 4, 199, 35,
   195, 24, 150, 5, 154, 7, 18, 128, 226, 235, 39, 178, 117, 9, 131, 44, 26, 27,
   110, 90, 160, 82, 59, 214, 179, 41, 227, 47, 132, 83, 209, 0, 237, 32, 252, 177,
   91, 106, 203, 190, 57, 74, 76, 88, 207, 208, 239, 170, 251, 67, 77, 51, 133, 69,
   249, 2, 127, 80, 60, 159, 168, 81, 163, 64, 143, 146, 157, 56, 245, 188, 182,
   218, 33, 16, 255, 243, 210, 205, 12, 19, 236, 95, 151, 68, 23, 196, 167, 126,
   61, 100, 93, 25, 115, 96, 129, 79, 220, 34, 42, 144, 136, 70, 238, 184, 20, 222,
   94, 11, 219, 224, 50, 58, 10, 73, 6, 36, 92, 194, 211, 172, 98, 145, 149, 228,
   121, 231, 200, 55, 109, 141, 213, 78, 169, 108, 86, 244, 234, 101, 122, 174, 8,
   186, 120, 37, 46, 28, 166, 180, 198, 232, 221, 116, 31, 75, 189, 139, 138, 112,
   62, 181, 102, 72, 3, 246, 14, 97, 53, 87, 185, 134, 193, 29, 158, 225, 248, 152,
   17, 105, 217, 142, 148, 155, 30, 135, 233, 206, 85, 40, 223, 140, 161, 137, 13,
   191, 230, 66, 104, 65, 153, 45, 15, 176, 84, 187, 22]

/-- S-box substitution of one byte. -/
def subByte (b : Nat) : Nat := sbox.getD b 0

/-- `SubBytes` on the 16-byte state. -/
def subBytes (s : List Nat) : List Nat := s.map subByte

/-- `ShiftRows` on the column-major flat state. -/
def shiftRows (s : List Nat) : List Nat :=
  [0, 5, 10, 15, 4, 9, 14, 3, 8, 13, 2, 7, 12, 1, 6, 11].map fun i => s.getD i 0

/-- Doubling in `GF(2^8)` modulo `x^8 + x^4 + x^3 + x + 1`. -/
def xtime (x : Nat) : Nat := ((2 * x) ^^^ (if 128 ≤ x then 27 else 0)) % 256

/-- `MixColumns` applied to column `c` of the state. -/
def mixColumn (s : List Nat) (c : Nat) : List Nat :=
  let a0 := s.getD (4 * c) 0
  let a1 := s.getD (4 * c + 1) 0
  let a2 := s.getD (4 * c + 2) 0
  let a3 := s.getD (4 * c + 3) 0
  [xtime a0 ^^^ (xtime a1 ^^^ a1) ^^^ a2 ^^^ a3,
   a0 ^^^ xtime a1 ^^^ (xtime a2 ^^^ a2) ^^^ a3,
   a0 ^^^ a1 ^^^ xtime a2 ^^^ (xtime a3 ^^^ a3),
   (xtime a0 ^^^ a0) ^^^ a1 ^^^ a2 ^^^ xtime a3]

/-- `MixColumns` on the whole state. -/
def mixColumns (s : List Nat) : List Nat :=
  mixColumn s 0 ++ mixColumn s 1 ++ mixColumn s 2 ++ mixColumn s 3

/-- Pointwise XOR of two byte lists (`AddRoundKey` and CTR/GCM combining). -/
def xorBytes (xs ys : List Nat) : List Nat := List.zipWith (· ^^^ ·) xs ys

/-- S-box substitution on a 4-byte word of the key schedule. -/
def subWord (w : List Nat) : List Nat := w.map subByte

/-- Rotation of a 4-byte word of the key schedule. -/
def rotWord (w : List Nat) : List Nat := w.drop 1 ++ w.take 1

/-- The AES round constants needed for a 256-bit key (`Rcon 1..7`). -/
def rconV (i : Nat) : Nat := [0, 1, 2, 4, 8, 16, 32, 64].getD i 0

/-- Word `i` of the AES-256 key schedule, given the previous words. -/
def nextWord (key : List Nat) (ws : List (List Nat)) (i : Nat) : List Nat :=
  if i < 8 then (key.drop (4 * i)).take 4
  else
    let wm1 := ws.getD (i - 1) []
    let wm8 := ws.getD (i - 8) []
    if i % 8 = 0 then xorBytes wm8 (xorBytes (subWord (rotWord wm1)) [rconV (i / 8), 0, 0, 0])
    else if i % 8 = 4 then xorBytes wm8 (subWord wm1)
    else xorBytes wm8 wm1

/-- The first `n` words of the AES-256 key schedule. -/
def keyWordsAux (key : List Nat) : Nat → List (List Nat)
  | 0 => []
  | i + 1 =>
    let prev := keyWordsAux key i
    prev ++ [nextWord key prev i]

/-- The full 60-word AES-256 key schedule. -/
def keyWords (key : List Nat) : List (List Nat) := keyWordsAux key 60

/-- Round key `r` as 16 bytes (column-major, matching the state layout). -/
def roundKey (ws : List (List Nat)) (r : Nat) : List Nat := ((ws.drop (4 * r)).take 4).flatten

/-- The 13 middle rounds of AES-256. -/
def aesRounds (ws : List (List Nat)) (s : List Nat) : Nat → List Nat
  | 0 => s
  | r + 1 => xorBytes (mixColumns (shiftRows (subBytes (aesRounds ws s r)))) (roundKey ws (r + 1))

/-- AES-256 encryption of one 16-byte block. -/
def aesBlock (key block : List Nat) : List Nat :=
  let ws := keyWords key
  let s13 := aesRounds ws (xorBytes block (roundKey ws 0)) 13
  xorBytes (shiftRows (subBytes s13)) (roundKey ws 14)

/-! ### GCM mode (`AES.new(key, AES.MODE_GCM, nonce)` with a 12-byte nonce) -/

/-- Big-endian byte list to number. -/
def bytesToNatBE (bs : List Nat) : Nat := bs.foldl (fun a b => a * 256 + b) 0

/-- Big-endian `len`-byte encoding of a number. -/
def natToBytesBE (len n : Nat) : List Nat :=
  (List.range len).map fun i => n / 2 ^ (8 * (len - 1 - i)) % 256

/-- The bit-reflected `GF(2^128)` product loop of SP 800-38D. -/
def gmulLoop : Nat → Nat → Nat → Nat → Nat
  | 0, _, z, _ => z
  | fuel + 1, x, z, v =>
    let z1 := if x / 2 ^ 127 % 2 = 1 then z ^^^ v else z
    let v1 := if v % 2 = 1 then v / 2 ^^^ 0xE1000000000000000000000000000000 else v / 2
    gmulLoop fuel (x * 2 % 2 ^ 128) z1 v1

/-- `GF(2^128)` multiplication (blocks as 128-bit numbers, big-endian). -/
def gf128Mul (x y : Nat) : Nat := gmulLoop 128 x 0 y

/-- `GHASH` over a list of 128-bit blocks. -/
def ghashBlocks (H : Nat) (blocks : List Nat) : Nat :=
  blocks.foldl (fun y b => gf128Mul (y ^^^ b) H) 0

/-- Zero-pad a partial block on the right to 16 bytes. -/
def padBlock16 (bs : List Nat) : List Nat := bs ++ List.replicate (16 - bs.length) 0

/-- The ciphertext split into zero-padded 16-byte blocks, as numbers. -/
def ctBlocks (ct : List Nat) : List Nat :=
  (List.range ((ct.length + 15) / 16)).map fun j =>
    bytesToNatBE (padBlock16 ((ct.drop (16 * j)).take 16))

/-- The CTR keystream: byte `i` comes from `AES(key, nonce ‖ counter)` with the
32-bit counter starting at 2 (the counter 1 block feeds the tag). -/
def gcmKeystream (key nonce : List Nat) (len : Nat) : List Nat :=
  (List.range len).map fun i =>
    (aesBlock key (nonce ++ natToBytesBE 4 (2 + i / 16))).getD (i % 16) 0

/-- The 16-byte GCM authentication tag over the ciphertext (no associated
data, as in the source): `GHASH_H(pad(ct) ‖ len64(aad)=0 ‖ len64(ct)) ⊕
AES(key, nonce ‖ 1)`. -/
def gcmTag (key nonce ct : List Nat) : List Nat :=
  let H := bytesToNatBE (aesBlock key (List.replicate 16 0))
  let s := ghashBlocks H (ctBlocks ct ++ [ct.length * 8])
  natToBytesBE 16 (s ^^^ bytesToNatBE (aesBlock key (nonce ++ natToBytesBE 4 1)))

/-- `cipher.encrypt_and_digest(pt)`: the ciphertext and the 16-byte tag. -/
def gcmEncryptDigest (key nonce pt : List Nat) : List Nat × List Nat :=
  let ct := xorBytes pt (gcmKeystream key nonce pt.length)
  (ct, gcmTag key nonce ct)

/-- `cipher.decrypt_and_verify(ct, tag)`: recompute the tag, fail on mismatch,
otherwise strip the keystream. -/
def gcmDecryptVerify (key nonce ct tag : List Nat) : Option (List Nat) :=
  if gcmTag key nonce ct = tag then some (xorBytes ct (gcmKeystream key nonce ct.length))
  else none

/-- `NeuralCipher.encrypt` with the 12 random nonce bytes passed explicitly:
`base64(nonce ‖ tag ‖ ciphertext)`.  Strings are represented by their UTF-8
byte sequences, so `plaintext.encode("utf-8")` is the identity here. -/
def encrypt (key nonce pt : List Nat) : List Nat :=
  let r := gcmEncryptDigest key nonce pt
  b64encode (nonce ++ r.2 ++ r.1)

/-- `NeuralCipher.decrypt`: base64-decode, split `nonce = [:12]`,
`tag = [12:28]`, `ct = [28:]`, then decrypt-and-verify; every failure
(`ValueError`) is `none`. -/
def decrypt (key : List Nat) (blob : List Nat) : Option (List Nat) :=
  match b64decode blob with
  | none => none
  | some combined =>
    gcmDecryptVerify key (combined.take 12) (combined.drop 28)
      ((combined.drop 12).take 16)

/-- Every element of the list is a byte value. -/
def AllB (l : List Nat) : Prop := ∀ b ∈ l, b < 256

instance (l : List Nat) : Decidable (AllB l) := by
  unfold AllB; infer_instance

/-! ### Session and coordinator (`handler.py`), for one session id

The coordinator state is modelled per session id: the registry entry
(`self.sessions.get(session_id)`), the sync-task entry
(`session_id in self._sync_tasks`), the task-local round counter, and the
ordered list of frames broadcast to the session's participants.  Python dicts
are insertion-ordered association lists; channels are opaque handles (`Nat`). -/

/-- Frames the modelled operations broadcast or send. -/
inductive Event
  | user_joined (user : String) (count : Nat)
  | session_info (count : Nat) (synced : Bool)
  | error_session_full
  | sync_start
  | sync_progress (round : Nat)
  | sync_complete (rounds : Nat)
  | user_left (user : String)
deriving DecidableEq, Repr

/-- Python `d[k] = v` on an insertion-ordered association list: replace in
place if the key exists, append otherwise. -/
def dictSet (k : String) (v : α) : List (String × α) → List (String × α)
  | [] => [(k, v)]
  | (k', v') :: rest => if k' = k then (k, v) :: rest else (k', v') :: dictSet k v rest

/-- Python `d.pop(k, None)`: drop the entry with key `k` if present. -/
def dictPop (k : String) : List (String × α) → List (String × α)
  | [] => []
  | (k', v') :: rest => if k' = k then rest else (k', v') :: dictPop k rest

/-- The `SyncSession` dataclass (`created_at` omitted; the cipher is modelled
by its normalized key). -/
structure Session where
  tpm_k : Nat
  tpm_n : Nat
  tpm_l : Nat
  participants : List (String × Nat)
  tpms : List (String × List (List Int))
  sync_round : Nat
  is_synced : Bool
  is_syncing : Bool
  shared_key : Option (List Nat)
  cipher : Option (List Nat)
  attacker_tpm : Option (List (List Int))
  attacker_progress : ℚ
  show_attacker : Bool
deriving DecidableEq, Repr

/-- `SyncSession.add_participant`: store the channel and a freshly
random-initialized TPM under `user_id` (replacing any existing entries). -/
def add_participant (s : Session) (user : String) (chan : Nat)
    (draws : Nat → Nat → Nat) : Session :=
  { s with participants := dictSet user chan s.participants,
           tpms := dictSet user (initWeights s.tpm_k s.tpm_n s.tpm_l draws) s.tpms }

/-- `SyncSession.remove_participant`. -/
def remove_participant (s : Session) (user : String) : Session :=
  { s with participants := dictPop user s.participants,
           tpms := dictPop user s.tpms }

/-- Coordinator state for one session id. -/
structure MState where
  session : Option Session
  syncTask : Bool
  roundNum : Nat
  events : List Event
deriving DecidableEq, Repr

/-- The empty coordinator state: no session, no task. -/
def mInit : MState := ⟨none, false, 0, []⟩

/-- The operations whose interleavings we consider; random draws
(fresh TPM weights, attacker weights, round inputs) and the task-local
learning-rule schedule are explicit oracle arguments. -/
inductive Op
  | connect (user : String) (chan : Nat) (k n l : Nat) (draws : Nat → Nat → Nat)
  | start_sync (attackerDraws : Nat → Nat → Nat)
  | sync_round (rule : LearningRule) (X : List (List Int))
  | disconnect (user : String)

/-- `ConnectionManager.connect`: create the session if absent (config from the
first connector), reject a third distinct participant with `SESSION_FULL`
(the raised `ValueError` leaves the session untouched and, since `connect`
returned no session, `main.py` runs no disconnect), otherwise
`add_participant` and notify. -/
def connectStep (user : String) (chan : Nat) (k n l : Nat)
    (draws : Nat → Nat → Nat) (m : MState) : MState :=
  let m1 :=
    match m.session with
    | none =>
      { m with
        session := some ⟨k, n, l, [], [], 0, false, false, none, none, none, 0, true⟩ }
    | some _ => m
  match m1.session with
  | none => m1
  | some s =>
    if 2 ≤ s.participants.length ∧ s.participants.lookup user = none then
      { m1 with events := m1.events ++ [.error_session_full] }
    else
      let s2 := add_participant s user chan draws
      { m1 with
        session := some s2,
        events := m1.events ++ [.user_joined user s2.participants.length,
          .session_info s2.participants.length s2.is_synced] }

/-- `start_sync_background` plus the prelude of `_run_sync` up to entering the
round loop, collapsed into one atomic step: no-op when a task is already
registered, when fewer than two participants are attached, or when the session
is synced or syncing; otherwise the task is registered, `is_syncing` is set,
`sync_start` is broadcast, and Eve's TPM is created on first run. -/
def startSyncStep (attackerDraws : Nat → Nat → Nat) (m : MState) : MState :=
  match m.session with
  | none => m
  | some s =>
    if m.syncTask then m
    else if s.participants.length ≠ 2 then m
    else if s.is_synced ∨ s.is_syncing then m
    else
      let s1 := { s with is_syncing := true }
      let s2 :=
        if s1.show_attacker ∧ s1.attacker_tpm = none then
          let We := initWeights s1.tpm_k s1.tpm_n s1.tpm_l attackerDraws
          let firstTpm := (s1.tpms.getD 0 ("", [])).2
          { s1 with
            attacker_tpm := some We,
            attacker_progress := progressFormula s1.tpm_k s1.tpm_n s1.tpm_l We firstTpm }
        else s1
      { m with
        session := some s2,
        syncTask := true,
        roundNum := 0,
        events := m.events ++ [.sync_start] }

/-- One iteration of the `_run_sync` round loop for the running task: break
when a participant is gone (the `finally` clears `is_syncing` and removes the
task); otherwise run `syncRoundCore` on the two stored TPMs, write the results
back, broadcast `sync_progress`, and on `weights_match` set `is_synced`,
derive `shared_key` from TPM `A`, build the cipher and broadcast
`sync_complete`.  The task's captured `tpm_a`/`tpm_b` references are modelled
by re-reading the first two `tpms` entries each round (the loop's prelude
guard `len(users) < 2` is mirrored here), which coincides with the source as
long as no reconnect swaps a TPM object mid-sync. -/
def syncRoundStep (rule : LearningRule) (X : List (List Int)) (m : MState) : MState :=
  match m.session with
  | none => m
  | some s =>
    if ¬(m.syncTask ∧ s.is_syncing = true) then m
    else if s.participants.length < 2 then
      { m with
        syncTask := false,
        session := some { s with is_syncing := false } }
    else if s.tpms.length < 2 then m
    else
      let u0 := (s.tpms.getD 0 ("", [])).1
      let u1 := (s.tpms.getD 1 ("", [])).1
      let Wa := (s.tpms.getD 0 ("", [])).2
      let Wb := (s.tpms.getD 1 ("", [])).2
      let o := syncRoundCore s.tpm_k s.tpm_n s.tpm_l rule Wa Wb s.attacker_tpm X
      let r := m.roundNum + 1
      let s2 := { s with
        tpms := dictSet u0 o.wa (dictSet u1 o.wb s.tpms),
        attacker_tpm := o.att,
        attacker_progress := o.data.attacker_progress.getD s.attacker_progress,
        sync_round := r }
      if o.data.weights_match then
        let key := get_key 32 o.wa
        { m with
          roundNum := r,
          syncTask := false,
          session := some { s2 with
            is_synced := true,
            is_syncing := false,
            shared_key := some key,
            cipher := some (cipherKey key) },
          events := m.events ++ [.sync_progress r, .sync_complete r] }
      else
        { m with
          roundNum := r,
          session := some s2,
          events := m.events ++ [.sync_progress r] }

/-- `ConnectionManager.disconnect`, exactly as written: the participant and
TPM are removed; the `user_left` broadcast and the empty-session cleanup are
executed only inside the `if session_id in self._sync_tasks` block. -/
def disconnectStep (user : String) (m : MState) : MState :=
  match m.session with
  | none => m
  | some s =>
    let s1 := remove_participant s user
    if m.syncTask then
      let m2 := { m with
        session := some s1,
        syncTask := false,
        events := m.events ++ [.user_left user] }
      if s1.participants = [] then { m2 with session := none } else m2
    else
      { m with session := some s1 }

/-- Dispatch one operation. -/
def stepOp : Op → MState → MState
  | .connect user chan k n l draws => connectStep user chan k n l draws
  | .start_sync attackerDraws => startSyncStep attackerDraws
  | .sync_round rule X => syncRoundStep rule X
  | .disconnect user => disconnectStep user

/-- Run a sequence of operations from a state. -/
def runOps (ops : List Op) (m : MState) : MState := ops.foldl (fun m op => stepOp op m) m

/-- The key/cipher half of the session invariant: a synced session holds a
32-byte (hence non-empty) shared key and an instantiated cipher. -/
def KeyCipherInv (m : MState) : Prop :=
  ∀ s, m.session = some s → s.is_synced = true →
    ∃ k, s.shared_key = some k ∧ k.length = 32 ∧ k ≠ [] ∧ s.cipher ≠ none

theorem clip_mem (L v : Int) (hL : 0 ≤ L) : -L ≤ clip L v ∧ clip L v ≤ L := by
  unfold clip
  constructor
  · exact le_min (le_max_right v (-L)) (by omega)
  · exact min_le_right _ _

theorem getD_mem_or (l : List α) (k : Nat) (d : α) :
    l.getD k d ∈ l ∨ l.getD k d = d := by
  induction l generalizing k with
  | nil => right; rfl
  | cons a as ih =>
    cases k with
    | zero => left; exact List.mem_cons_self a as
    | succ k =>
      rcases ih k with h | h
      · left; exact List.mem_cons_of_mem a h
      · right; exact h

theorem zipW3_getD (f : α → β → γ → δ) (da : α) (db : β) (dc : γ) :
    ∀ (as : List α) (bs : List β) (cs : List γ) (k : Nat),
      k < as.length → k < bs.length → k < cs.length →
      (zipW3 f as bs cs).getD k (f da db dc)
        = f (as.getD k da) (bs.getD k db) (cs.getD k dc) := by
  intro as
  induction as with
  | nil => intro bs cs k h; simp at h
  | cons a as ih =>
    intro bs cs k ha hb hc
    cases bs with
    | nil => simp at hb
    | cons b bs =>
      cases cs with
      | nil => simp at hc
      | cons c cs =>
        cases k with
        | zero => rfl
        | succ k =>
          simp only [zipW3, List.getD_cons_succ]
          exact ih (b :: bs).tail (c :: cs).tail k (by simpa using ha)
            (by simpa using hb) (by simpa using hc)

theorem zipW3_length (f : α → β → γ → δ) :
    ∀ (as : List α) (bs : List β) (cs : List γ),
      (zipW3 f as bs cs).length = min as.length (min bs.length cs.length) := by
  intro as
  induction as with
  | nil => intro bs cs; simp [zipW3]
  | cons a as ih =>
    intro bs cs
    cases bs with
    | nil => simp [zipW3]
    | cons b bs =>
      cases cs with
      | nil => simp [zipW3]
      | cons c cs => simp [zipW3, ih]; omega


theorem exists_of_mem_zipWith {f : α → β → γ} :
    ∀ {xs : List α} {ys : List β} {v : γ}, v ∈ List.zipWith f xs ys →
      ∃ x ∈ xs, ∃ y ∈ ys, v = f x y := by
  intro xs
  induction xs with
  | nil => intro ys v h; simp at h
  | cons x xs ih =>
    intro ys v h
    cases ys with
    | nil => simp at h
    | cons y ys =>
      rcases List.mem_cons.mp h with h | h
      · exact ⟨x, List.mem_cons_self _ _, y, List.mem_cons_self _ _, h⟩
      · rcases ih h with ⟨a, ha, b, hb, hv⟩
        exact ⟨a, List.mem_cons_of_mem _ ha, b, List.mem_cons_of_mem _ hb, hv⟩

theorem exists_of_mem_zipW3 {f : α → β → γ → δ} :
    ∀ {as : List α} {bs : List β} {cs : List γ} {d : δ}, d ∈ zipW3 f as bs cs →
      ∃ a ∈ as, ∃ b ∈ bs, ∃ c ∈ cs, d = f a b c := by
  intro as
  induction as with
  | nil => intro bs cs d h; simp [zipW3] at h
  | cons a as ih =>
    intro bs cs d h
    cases bs with
    | nil => simp [zipW3] at h
    | cons b bs =>
      cases cs with
      | nil => simp [zipW3] at h
      | cons c cs =>
        rcases List.mem_cons.mp h with h | h
        · exact ⟨a, List.mem_cons_self _ _, b, List.mem_cons_self _ _,
            c, List.mem_cons_self _ _, h⟩
        · rcases ih h with ⟨x, hx, y, hy, z, hz, hv⟩
          exact ⟨x, List.mem_cons_of_mem _ hx, y, List.mem_cons_of_mem _ hy,
            z, List.mem_cons_of_mem _ hz, hv⟩

theorem updateRow_inRange (L : Int) (rule : LearningRule) (w x : List Int) (sk : Int)
    (hL : 0 ≤ L) : ∀ v ∈ updateRow L rule w x sk, -L ≤ v ∧ v ≤ L := by
  intro v hv
  rcases rule <;>
    · simp only [updateRow] at hv
      rcases exists_of_mem_zipWith hv with ⟨a, _, b, _, hv⟩
      rw [hv]; exact clip_mem L _ hL

theorem update_weights_inRange (L : Int) (W X : List (List Int))
    (tauSelf tauOther : Int) (sigma : List Int) (rule : LearningRule)
    (hL : 0 ≤ L) (hW : InRange L W) :
    InRange L (update_weights L W X tauSelf tauOther sigma rule).2 := by
  unfold update_weights
  by_cases h : tauSelf ≠ tauOther
  · simpa [h] using hW
  · simp only [h, if_false, ite_not, if_pos]
    intro row hrow
    rcases exists_of_mem_zipW3 hrow with ⟨w, hw, xr, _, sk, _, hrw⟩
    subst hrw
    by_cases hsk : sk = tauSelf
    · simp only [hsk, if_pos rfl]
      exact updateRow_inRange L rule w xr tauSelf hL
    · simp only [if_neg hsk]
      exact hW w hw

theorem boostRow_inRange (L : Int) (rule : LearningRule) (step : Int)
    (w x : List Int) (sk : Int) (hL : 0 ≤ L) (hw : ∀ v ∈ w, -L ≤ v ∧ v ≤ L) :
    ∀ v ∈ boostRow L rule step w x sk, -L ≤ v ∧ v ≤ L := by
  intro v hv
  rcases rule
  · simp only [boostRow] at hv
    rcases exists_of_mem_zipWith hv with ⟨a, _, b, _, hv⟩
    rw [hv]; exact clip_mem L _ hL
  · exact hw v hv
  · simp only [boostRow] at hv
    rcases exists_of_mem_zipWith hv with ⟨a, _, b, _, hv⟩
    rw [hv]; exact clip_mem L _ hL

theorem boost_inRange (L : Int) (rule : LearningRule) (step : Int)
    (W X : List (List Int)) (sigma : List Int) (tau : Int)
    (hL : 0 ≤ L) (hW : InRange L W) : InRange L (boost L rule step W X sigma tau) := by
  intro row hrow
  rcases exists_of_mem_zipW3 hrow with ⟨w, hw, xr, _, sk, _, hrw⟩
  subst hrw
  by_cases hsk : sk = tau
  · simp only [hsk, if_pos rfl]
    exact boostRow_inRange L rule step w xr tau hL (hW w hw)
  · simp only [if_neg hsk]
    exact hW w hw

theorem convergePair_fst_inRange (L a b : Int) (hL : 0 ≤ L)
    (ha : -L ≤ a ∧ a ≤ L) : -L ≤ (convergePair L a b).1 ∧ (convergePair L a b).1 ≤ L := by
  unfold convergePair
  by_cases h1 : |a - b| = 1
  · by_cases h2 : |b - a| = 1
    · simp only [h1, h2, if_pos rfl]
      exact clip_mem L _ hL
    · simp [h1, h2]; omega
  · simp [h1]; omega

theorem convergePair_snd_inRange (L a b : Int) (hL : 0 ≤ L)
    (hb : -L ≤ b ∧ b ≤ L) : -L ≤ (convergePair L a b).2 ∧ (convergePair L a b).2 ≤ L := by
  unfold convergePair
  by_cases h1 : |a - b| = 1
  · by_cases h2 : |b - a| = 1
    · simp only [h1, h2, if_pos rfl]
      exact clip_mem L _ hL
    · simp [h1, h2]; omega
  · simp [h1]; omega

theorem directConverge_inRange (L : Int) (Wa Wb : List (List Int)) (hL : 0 ≤ L)
    (hWa : InRange L Wa) (hWb : InRange L Wb) :
    InRange L (directConverge L Wa Wb).1 ∧ InRange L (directConverge L Wa Wb).2 := by
  constructor <;>
  · intro row hrow
    simp only [directConverge, List.mem_map] at hrow
    rcases hrow with ⟨prow, hprow, hrw⟩
    rcases exists_of_mem_zipWith hprow with ⟨ra, hra, rb, hrb, hp⟩
    subst hrw hp
    intro v hv
    simp only [List.mem_map] at hv
    rcases hv with ⟨pv, hpv, hv⟩
    rcases exists_of_mem_zipWith hpv with ⟨a, ha, b, hb, hpv'⟩
    subst hv hpv'
    first
      | exact convergePair_fst_inRange L a b hL (hWa ra hra a ha)
      | exact convergePair_snd_inRange L a b hL (hWb rb hrb b hb)

theorem endgameAssist_inRange (L : Int) (rule : LearningRule) (agreed : Bool)
    (X : List (List Int)) (sigA sigB : List Int) (tauA tauB : Int)
    (Wa Wb : List (List Int)) (progress : ℚ) (hL : 0 ≤ L)
    (hWa : InRange L Wa) (hWb : InRange L Wb) :
    InRange L (endgameAssist L rule agreed X sigA sigB tauA tauB Wa Wb progress).1 ∧
    InRange L (endgameAssist L rule agreed X sigA sigB tauA tauB Wa Wb progress).2 := by
  unfold endgameAssist
  by_cases h1 : progress ≥ 0.85 ∧ Wa ≠ Wb
  · simp only [if_pos h1]
    have hp1 : InRange L (if progress ≥ 0.90 then directConverge L Wa Wb else (Wa, Wb)).1 ∧
        InRange L (if progress ≥ 0.90 then directConverge L Wa Wb else (Wa, Wb)).2 := by
      by_cases h2 : progress ≥ 0.90
      · simp only [if_pos h2]
        exact directConverge_inRange L Wa Wb hL hWa hWb
      · simp only [if_neg h2]
        exact ⟨hWa, hWb⟩
    by_cases h3 : agreed = true ∧ progress ≥ 0.85
    · simp only [if_pos h3]
      exact ⟨boost_inRange L rule _ _ X sigA tauA hL hp1.1,
        boost_inRange L rule _ _ X sigB tauB hL hp1.2⟩
    · simp only [if_neg h3]
      exact hp1
  · simp only [if_neg h1]
    exact ⟨hWa, hWb⟩

theorem randint_inRange (L : Int) (r : Nat) (hL : 0 ≤ L) :
    -L ≤ randint (-L) (L + 1) r ∧ randint (-L) (L + 1) r ≤ L := by
  unfold randint
  have hm : (0 : Int) < L + 1 - -L := by omega
  have h1 : 0 ≤ (r : Int) % (L + 1 - -L) := Int.emod_nonneg _ (by omega)
  have h2 : (r : Int) % (L + 1 - -L) < L + 1 - -L := Int.emod_lt_of_pos _ hm
  omega

theorem initWeights_inRange (K N : Nat) (L : Int) (draws : Nat → Nat → Nat)
    (hL : 0 ≤ L) : InRange L (initWeights K N L draws) := by
  intro row hrow
  simp only [initWeights, List.mem_map] at hrow
  rcases hrow with ⟨k, _, hrw⟩
  subst hrw
  intro v hv
  simp only [List.mem_map] at hv
  rcases hv with ⟨n, _, hv⟩
  subst hv
  exact randint_inRange L (draws k n) hL

/-- **C2.** Every weight lies in `[-L, L]`: after construction (for every RNG
draw), after every `update_weights` call (any input, outputs, sigma and rule),
and after every application of the end-game convergence assist. -/
theorem claim_C2_weight_bounds (K N : Nat) (L : Int) (hL : 0 ≤ L) :
    (∀ draws, InRange L (initWeights K N L draws)) ∧
    (∀ W X tauSelf tauOther sigma rule, InRange L W →
      InRange L (update_weights L W X tauSelf tauOther sigma rule).2) ∧
    (∀ rule agreed X sigA sigB tauA tauB Wa Wb progress,
      InRange L Wa → InRange L Wb →
      InRange L (endgameAssist L rule agreed X sigA sigB tauA tauB Wa Wb progress).1 ∧
      InRange L (endgameAssist L rule agreed X sigA sigB tauA tauB Wa Wb progress).2) := by
  refine ⟨fun draws => initWeights_inRange K N L draws hL,
    fun W X ts tOth sg rule hW => update_weights_inRange L W X ts tOth sg rule hL hW,
    fun rule agreed X sigA sigB tauA tauB Wa Wb progress hWa hWb =>
      endgameAssist_inRange L rule agreed X sigA sigB tauA tauB Wa Wb progress hL hWa hWb⟩

/-- Concrete instance of `claim_C2_weight_bounds` at `(K, N, L) = (2, 2, 3)`:
a constructed matrix, an updated matrix and an assisted matrix all stay
inside `[-3, 3]`. -/
theorem claim_C2_weight_bounds_witness :
    InRange 3 (initWeights 2 2 3 (fun k n => 5 * k + 7 * n)) ∧
    InRange 3 (update_weights 3 [[3, -3], [2, 0]] [[1, 1], [-1, 1]] 1 1 [1, 1] .hebbian).2 ∧
    InRange 3 (endgameAssist 3 .random_walk true [[1, 1], [-1, 1]] [1, 1] [1, -1] 1 1
      [[3, -3], [2, 0]] [[3, -3], [2, 1]] 0.95).1 := by
  have h := claim_C2_weight_bounds 2 2 3 (by decide)
  exact ⟨h.1 (fun k n => 5 * k + 7 * n),
    h.2.1 [[3, -3], [2, 0]] [[1, 1], [-1, 1]] 1 1 [1, 1] .hebbian (by decide),
    (h.2.2 .random_walk true [[1, 1], [-1, 1]] [1, 1] [1, -1] 1 1
      [[3, -3], [2, 0]] [[3, -3], [2, 1]] 0.95 (by decide) (by decide)).1⟩

/-- **C4.** `update_weights` frame property: a disagreeing round is a no-op
returning `false`; an agreeing round returns `true` and leaves every row whose
hidden output differs from the common `tau` untouched. -/
theorem claim_C4_update_frame (L : Int) (W X : List (List Int)) (tauSelf tauOther : Int)
    (sigma : List Int) (rule : LearningRule)
    (hx : X.length = W.length) (hs : sigma.length = W.length) :
    (tauSelf ≠ tauOther → update_weights L W X tauSelf tauOther sigma rule = (false, W)) ∧
    (tauSelf = tauOther →
      (update_weights L W X tauSelf tauOther sigma rule).1 = true ∧
      (update_weights L W X tauSelf tauOther sigma rule).2.length = W.length ∧
      ∀ k, k < W.length → sigma.getD k 0 ≠ tauSelf →
        (update_weights L W X tauSelf tauOther sigma rule).2.getD k []
          = W.getD k []) := by
  constructor
  · intro hne
    simp [update_weights, hne]
  · intro heq
    subst heq
    refine ⟨by simp [update_weights], ?_, ?_⟩
    · simp [update_weights, zipW3_length, hx, hs]
    · intro k hk hsig
      simp only [update_weights, ite_false, ne_eq, not_true_eq_false, if_neg, not_not]
      have h := zipW3_getD
        (fun w x sk => if sk = tauSelf then updateRow L rule w x sk else w)
        [] [] (0 : Int) W X sigma k hk (by omega) (by omega)
      have hd : (if (0 : Int) = tauSelf then updateRow L rule [] [] 0 else []) = [] := by
        rcases rule <;> simp [updateRow]
      simp only [if_neg hsig, hd] at h
      simpa using h

/-- Concrete instance of `claim_C4_update_frame`: `K = 2`, `N = 2`, `L = 3`,
a disagreeing round is the identity and in an agreeing round the row with
`sigma k ≠ tau` keeps its weights. -/
theorem claim_C4_update_frame_witness :
    (([[1, -2], [3, 0]] : List (List Int)).length = ([[1, 2], [-1, 1]] : List (List Int)).length) ∧
    (update_weights 3 [[1, 2], [-1, 1]] [[1, -2], [3, 0]] 1 (-1) [1, -1] .hebbian
      = (false, [[1, 2], [-1, 1]])) ∧
    (update_weights 3 [[1, 2], [-1, 1]] [[1, -2], [3, 0]] 1 1 [1, -1] .hebbian).2.getD 1 []
      = ([[1, 2], [-1, 1]] : List (List Int)).getD 1 [] := by
  refine ⟨by decide, ?_, ?_⟩
  · exact (claim_C4_update_frame 3 [[1, 2], [-1, 1]] [[1, -2], [3, 0]] 1 (-1) [1, -1]
      .hebbian (by decide) (by decide)).1 (by decide)
  · exact ((claim_C4_update_frame 3 [[1, 2], [-1, 1]] [[1, -2], [3, 0]] 1 1 [1, -1]
      .hebbian (by decide) (by decide)).2 rfl).2.2 1 (by decide) (by decide)

theorem flatMap_congr {f g : α → List β} :
    ∀ (l : List α), (∀ a ∈ l, f a = g a) → l.flatMap f = l.flatMap g := by
  intro l
  induction l with
  | nil => intro _; rfl
  | cons a as ih =>
    intro h
    simp only [List.flatMap_cons, h a (List.mem_cons_self _ _),
      ih fun x hx => h x (List.mem_cons_of_mem _ hx)]

theorem int32LE_eq_spec (v : Int) (h1 : -(2 ^ 31) ≤ v) (h2 : v < 2 ^ 31) :
    int32LE v =
      (let u := if 0 ≤ v then v.toNat else (v + 4294967296).toNat
       [u % 256, u / 256 % 256, u / 65536 % 256, u / 16777216 % 256]) := by
  have hmod : v % 4294967296 = if 0 ≤ v then v else v + 4294967296 := by
    by_cases h : 0 ≤ v <;> simp only [h, if_true, if_false] <;> omega
  unfold int32LE
  by_cases h : 0 ≤ v <;> simp only [hmod, h, if_true, if_false]

theorem tobytesInt32_eq_serializeSpec (W : List (List Int))
    (hW : ∀ row ∈ W, ∀ v ∈ row, -(2 ^ 31) ≤ v ∧ v < 2 ^ 31) :
    tobytesInt32 W = serializeSpec W := by
  unfold tobytesInt32 serializeSpec
  refine flatMap_congr _ fun v hv => ?_
  rcases List.mem_flatten.mp hv with ⟨row, hrow, hvrow⟩
  exact int32LE_eq_spec v (hW row hrow v hvrow).1 (hW row hrow v hvrow).2

/-- **C5.** `get_key(length)` is the first `length` bytes of SHA-256 of the
normative serialization (row-major, little-endian 32-bit signed integers), and
bit-identical weight matrices give bit-identical key material. -/
theorem claim_C5_get_key (len : Nat) (W : List (List Int))
    (hW : ∀ row ∈ W, ∀ v ∈ row, -(2 ^ 31) ≤ v ∧ v < 2 ^ 31) :
    get_key len W = (sha256 (serializeSpec W)).take len ∧
    (∀ Wa Wb : List (List Int), Wa = Wb → get_key len Wa = get_key len Wb) := by
  constructor
  · unfold get_key
    rw [tobytesInt32_eq_serializeSpec W hW]
  · intro Wa Wb h
    rw [h]

/-- Concrete instance of `claim_C5_get_key` on a 2×2 matrix. -/
theorem claim_C5_get_key_witness :
    (∀ row ∈ ([[3, -2], [0, 1]] : List (List Int)), ∀ v ∈ row,
      -(2 ^ 31) ≤ v ∧ v < 2 ^ 31) ∧
    get_key 32 [[3, -2], [0, 1]] = (sha256 (serializeSpec [[3, -2], [0, 1]])).take 32 := by
  refine ⟨by decide, ?_⟩
  exact (claim_C5_get_key 32 [[3, -2], [0, 1]] (by decide)).1

theorem convergePair_swap (L a b : Int) :
    convergePair L b a = ((convergePair L a b).2, (convergePair L a b).1) := by
  unfold convergePair
  by_cases h1 : |a - b| = 1
  · have h2 : |b - a| = 1 := by rw [abs_sub_comm]; exact h1
    have hab : a ≠ b := by intro h; rw [h] at h1; simp at h1
    by_cases h3 : a < b
    · have h4 : ¬ b < a := by omega
      simp [h1, h2, h3, h4]
    · have h4 : b < a := by omega
      simp [h1, h2, h3, h4]
  · have h2 : ¬ |b - a| = 1 := by rw [abs_sub_comm]; exact h1
    simp [h1, h2]

theorem zipWith_convergePair_swap (L : Int) :
    ∀ (ra rb : List Int),
      List.zipWith (fun a b => convergePair L a b) rb ra
        = (List.zipWith (fun a b => convergePair L a b) ra rb).map
            (fun p => (p.2, p.1)) := by
  intro ra
  induction ra with
  | nil => intro rb; cases rb <;> simp
  | cons a as ih =>
    intro rb
    cases rb with
    | nil => simp
    | cons b bs => simp [convergePair_swap L a b, ih bs]

theorem rows_convergePair_swap (L : Int) :
    ∀ (Wa Wb : List (List Int)),
      List.zipWith (fun ra rb => List.zipWith (fun a b => convergePair L a b) ra rb) Wb Wa
        = (List.zipWith (fun ra rb => List.zipWith (fun a b => convergePair L a b) ra rb)
            Wa Wb).map (List.map (fun p => (p.2, p.1))) := by
  intro Wa
  induction Wa with
  | nil => intro Wb; cases Wb <;> simp
  | cons ra ras ih =>
    intro Wb
    cases Wb with
    | nil => simp
    | cons rb rbs => simp [zipWith_convergePair_swap L ra rb, ih rbs]

theorem directConverge_swap (L : Int) (Wa Wb : List (List Int)) :
    directConverge L Wb Wa
      = ((directConverge L Wa Wb).2, (directConverge L Wa Wb).1) := by
  unfold directConverge
  rw [rows_convergePair_swap L Wa Wb]
  simp [List.map_map, Function.comp]

/-- **C8.** The end-game convergence assist is symmetric: running it on
`(B, A)` with the per-party data swapped yields exactly the swapped result of
running it on `(A, B)` — both parties end with the same pair of matrices. -/
theorem claim_C8_assist_symmetric (L : Int) (rule : LearningRule) (agreed : Bool)
    (X : List (List Int)) (sigA sigB : List Int) (tauA tauB : Int)
    (Wa Wb : List (List Int)) (progress : ℚ) :
    endgameAssist L rule agreed X sigB sigA tauB tauA Wb Wa progress
      = ((endgameAssist L rule agreed X sigA sigB tauA tauB Wa Wb progress).2,
         (endgameAssist L rule agreed X sigA sigB tauA tauB Wa Wb progress).1) := by
  unfold endgameAssist
  by_cases h1 : progress ≥ 0.85 ∧ Wa ≠ Wb
  · have h1' : progress ≥ 0.85 ∧ Wb ≠ Wa := ⟨h1.1, h1.2.symm⟩
    rw [if_pos h1, if_pos h1']
    by_cases h2 : progress ≥ 0.90
    · rw [if_pos h2, if_pos h2, directConverge_swap L Wa Wb]
      by_cases h3 : agreed = true ∧ progress ≥ 0.85
      · simp [h3, h2]
      · simp [h3, h2]
    · rw [if_neg h2, if_neg h2]
      by_cases h3 : agreed = true ∧ progress ≥ 0.85
      · simp [h3, h2]
      · simp [h3, h2]
  · have h1' : ¬(progress ≥ 0.85 ∧ Wb ≠ Wa) := fun h => h1 ⟨h.1, h.2.symm⟩
    rw [if_neg h1, if_neg h1']

theorem sha256_length (msg : List Nat) : (sha256 msg).length = 32 := by
  simp [sha256, wordBytesBE]

theorem get_key_length (W : List (List Int)) : (get_key 32 W).length = 32 := by
  simp [get_key, List.length_take, sha256_length]

theorem syncRoundCore_att_indep (K N L : Nat) (rule : LearningRule)
    (Wa Wb : List (List Int)) (att : Option (List (List Int))) (X : List (List Int)) :
    (syncRoundCore K N L rule Wa Wb att X).wa = (syncRoundCore K N L rule Wa Wb none X).wa ∧
    (syncRoundCore K N L rule Wa Wb att X).wb = (syncRoundCore K N L rule Wa Wb none X).wb := by
  cases att <;> exact ⟨rfl, rfl⟩

theorem roundTrace_att_indep (K N L : Nat) :
    ∀ (steps : List (LearningRule × List (List Int))) (Wa Wb : List (List Int))
      (att : Option (List (List Int))),
      roundTrace K N L steps (Wa, Wb, att) = roundTrace K N L steps (Wa, Wb, none) := by
  intro steps
  induction steps with
  | nil => intro Wa Wb att; rfl
  | cons p rest ih =>
    intro Wa Wb att
    obtain ⟨rule, X⟩ := p
    have h := syncRoundCore_att_indep K N L rule Wa Wb att X
    have hnone : (syncRoundCore K N L rule Wa Wb none X).att = none := rfl
    simp only [roundTrace]
    rw [h.1, h.2, hnone, ih _ _ ((syncRoundCore K N L rule Wa Wb att X).att)]

theorem runRounds_att_indep (K N L : Nat) :
    ∀ (steps : List (LearningRule × List (List Int))) (Wa Wb : List (List Int))
      (att : Option (List (List Int))),
      (runRounds K N L steps (Wa, Wb, att)).1 = (runRounds K N L steps (Wa, Wb, none)).1 ∧
      (runRounds K N L steps (Wa, Wb, att)).2.1
        = (runRounds K N L steps (Wa, Wb, none)).2.1 := by
  intro steps
  induction steps with
  | nil => intro Wa Wb att; exact ⟨rfl, rfl⟩
  | cons p rest ih =>
    intro Wa Wb att
    obtain ⟨rule, X⟩ := p
    have h := syncRoundCore_att_indep K N L rule Wa Wb att X
    have hnone : (syncRoundCore K N L rule Wa Wb none X).att = none := rfl
    simp only [runRounds]
    rw [h.1, h.2, hnone]
    exact ih (syncRoundCore K N L rule Wa Wb none X).wa
      (syncRoundCore K N L rule Wa Wb none X).wb
      ((syncRoundCore K N L rule Wa Wb att X).att)

/-- **C9.** The eavesdropper simulation never influences the participants:
one round with Eve present yields the same participant weights as without
her, the whole per-round weight trace is identical, and the derived key
material is identical; her update writes only the `att` component. -/
theorem claim_C9_attacker_no_influence (K N L : Nat) (rule : LearningRule)
    (steps : List (LearningRule × List (List Int))) (Wa Wb We : List (List Int))
    (X : List (List Int)) (len : Nat) :
    ((syncRoundCore K N L rule Wa Wb (some We) X).wa
        = (syncRoundCore K N L rule Wa Wb none X).wa ∧
      (syncRoundCore K N L rule Wa Wb (some We) X).wb
        = (syncRoundCore K N L rule Wa Wb none X).wb) ∧
    roundTrace K N L steps (Wa, Wb, some We) = roundTrace K N L steps (Wa, Wb, none) ∧
    get_key len (runRounds K N L steps (Wa, Wb, some We)).1
      = get_key len (runRounds K N L steps (Wa, Wb, none)).1 := by
  refine ⟨syncRoundCore_att_indep K N L rule Wa Wb (some We) X,
    roundTrace_att_indep K N L steps Wa Wb (some We), ?_⟩
  rw [(runRounds_att_indep K N L steps Wa Wb (some We)).1]

theorem endgameAssist_noop (L : Int) (rule : LearningRule) (agreed : Bool)
    (X : List (List Int)) (sigA sigB : List Int) (tauA tauB : Int)
    (Wa Wb : List (List Int)) (progress : ℚ)
    (h : ¬(progress ≥ 0.85 ∧ Wa ≠ Wb)) :
    endgameAssist L rule agreed X sigA sigB tauA tauB Wa Wb progress = (Wa, Wb) := by
  unfold endgameAssist
  rw [if_neg h]

theorem syncRoundCore_match_eq (K N L : Nat) (rule : LearningRule)
    (Wa Wb : List (List Int)) (att : Option (List (List Int))) (X : List (List Int)) :
    (syncRoundCore K N L rule Wa Wb att X).data.weights_match = true →
    (syncRoundCore K N L rule Wa Wb att X).wa = (syncRoundCore K N L rule Wa Wb att X).wb := by
  intro h
  unfold syncRoundCore at h ⊢
  dsimp only at h ⊢
  split at h
  · exact of_decide_eq_true h
  · rename_i hc
    have hW := of_decide_eq_true h
    rw [endgameAssist_noop _ _ _ _ _ _ _ _ _ _ _ hc, hW]

theorem keyCipherInv_connect (user : String) (chan : Nat) (k n l : Nat)
    (draws : Nat → Nat → Nat) (m : MState) (h : KeyCipherInv m) :
    KeyCipherInv (connectStep user chan k n l draws m) := by
  unfold connectStep
  cases hm : m.session with
  | none =>
    intro s' hs' hsync'
    simp only [hm] at hs'
    split at hs' <;> simp only [Option.some.injEq] at hs'
    · subst hs'
      simp at hsync'
    · subst hs'
      simp [add_participant] at hsync'
  | some s =>
    intro s' hs' hsync'
    simp only [hm] at hs'
    split at hs' <;> simp only [Option.some.injEq] at hs'
    · subst hs'
      exact h s hm hsync'
    · subst hs'
      simp only [add_participant] at hsync' ⊢
      rcases h s hm hsync' with ⟨key, hk, hlen, hne, hc⟩
      exact ⟨key, hk, hlen, hne, hc⟩

theorem keyCipherInv_startSync (attackerDraws : Nat → Nat → Nat) (m : MState)
    (h : KeyCipherInv m) : KeyCipherInv (startSyncStep attackerDraws m) := by
  intro s' hs' hsync'
  unfold startSyncStep at hs'
  dsimp only at hs'
  split at hs'
  · exact h s' hs' hsync'
  · rename_i s heq
    split at hs'
    · exact h s' hs' hsync'
    · split at hs'
      · exact h s' hs' hsync'
      · split at hs'
        · exact h s' hs' hsync'
        · simp only [Option.some.injEq] at hs'
          split at hs' <;>
          · subst hs'
            dsimp only at hsync' ⊢
            rcases h s heq hsync' with ⟨key, hk, hlen, hne, hc⟩
            exact ⟨key, hk, hlen, hne, hc⟩

theorem keyCipherInv_syncRound (rule : LearningRule) (X : List (List Int)) (m : MState)
    (h : KeyCipherInv m) : KeyCipherInv (syncRoundStep rule X m) := by
  intro s' hs' hsync'
  unfold syncRoundStep at hs'
  dsimp only at hs'
  split at hs'
  · exact h s' hs' hsync'
  · rename_i s heq
    split at hs'
    · exact h s' hs' hsync'
    · split at hs'
      · simp only [Option.some.injEq] at hs'
        subst hs'
        dsimp only at hsync' ⊢
        rcases h s heq hsync' with ⟨key, hk, hlen, hne, hc⟩
        exact ⟨key, hk, hlen, hne, hc⟩
      · split at hs'
        · exact h s' hs' hsync'
        · split at hs'
          · simp only [Option.some.injEq] at hs'
            subst hs'
            dsimp only at hsync' ⊢
            refine ⟨_, rfl, get_key_length _, ?_, by simp⟩
            intro hnil
            have h32 := congrArg List.length hnil
            rw [get_key_length] at h32
            simp at h32
          · simp only [Option.some.injEq] at hs'
            subst hs'
            dsimp only at hsync' ⊢
            rcases h s heq hsync' with ⟨key, hk, hlen, hne, hc⟩
            exact ⟨key, hk, hlen, hne, hc⟩

theorem keyCipherInv_disconnect (user : String) (m : MState) (h : KeyCipherInv m) :
    KeyCipherInv (disconnectStep user m) := by
  intro s' hs' hsync'
  unfold disconnectStep at hs'
  dsimp only at hs'
  split at hs'
  · exact h s' hs' hsync'
  · rename_i s heq
    split at hs'
    · split at hs'
      · simp at hs'
      · simp only [Option.some.injEq] at hs'
        subst hs'
        simp only [remove_participant] at hsync' ⊢
        rcases h s heq hsync' with ⟨key, hk, hlen, hne, hc⟩
        exact ⟨key, hk, hlen, hne, hc⟩
    · simp only [Option.some.injEq] at hs'
      subst hs'
      simp only [remove_participant] at hsync' ⊢
      rcases h s heq hsync' with ⟨key, hk, hlen, hne, hc⟩
      exact ⟨key, hk, hlen, hne, hc⟩

theorem keyCipherInv_step (op : Op) (m : MState) (h : KeyCipherInv m) :
    KeyCipherInv (stepOp op m) := by
  cases op with
  | connect user chan k n l draws => exact keyCipherInv_connect user chan k n l draws m h
  | start_sync d => exact keyCipherInv_startSync d m h
  | sync_round rule X => exact keyCipherInv_syncRound rule X m h
  | disconnect user => exact keyCipherInv_disconnect user m h

theorem keyCipherInv_runOps :
    ∀ (ops : List Op) (m : MState), KeyCipherInv m → KeyCipherInv (runOps ops m) := by
  intro ops
  induction ops with
  | nil => intro m h; exact h
  | cons op rest ih =>
    intro m h
    exact ih (stepOp op m) (keyCipherInv_step op m h)

/-- **C1 (amended).** In every reachable coordinator state, a synced session
holds a 32-byte non-empty shared key and an instantiated cipher; and the sync
round that reports `weights_match` (the round that establishes `is_synced`)
ends with the two participants' weight matrices bit-identical.  (A reconnect
after synchronization replaces one TPM with a fresh random one while leaving
`is_synced` set, so weight identity is not preserved by `connect`; see the
counterexample.) -/
theorem claim_C1_amended :
    (∀ ops : List Op, KeyCipherInv (runOps ops mInit)) ∧
    (∀ (K N L : Nat) (rule : LearningRule) (Wa Wb : List (List Int))
      (att : Option (List (List Int))) (X : List (List Int)),
      (syncRoundCore K N L rule Wa Wb att X).data.weights_match = true →
      (syncRoundCore K N L rule Wa Wb att X).wa = (syncRoundCore K N L rule Wa Wb att X).wb) :=
  ⟨fun ops => keyCipherInv_runOps ops mInit (fun _ h => by simp [mInit] at h),
   fun K N L rule Wa Wb att X h => syncRoundCore_match_eq K N L rule Wa Wb att X h⟩

/-- **C1 (counterexample).** A realizable trace violating the claim as stated:
`alice` and `bob` connect with `(K, N, L) = (1, 1, 1)` and draws giving both
TPMs weights `[[1]]`; the first sync round synchronizes (`is_synced`, key and
cipher are set); then `alice` reconnects, which replaces her TPM by a fresh
random one with weights `[[0]]`.  The resulting state has `is_synced = true`
while the two stored weight matrices differ. -/
theorem claim_C1_counterexample :
    ((runOps
      [Op.connect "alice" 1 1 1 1 (fun _ _ => 2),
       Op.connect "bob" 2 1 1 1 (fun _ _ => 2),
       Op.start_sync (fun _ _ => 0),
       Op.sync_round .random_walk [[1]],
       Op.connect "alice" 3 1 1 1 (fun _ _ => 1)] mInit).session.map
        Session.is_synced) = some true ∧
    ((runOps
      [Op.connect "alice" 1 1 1 1 (fun _ _ => 2),
       Op.connect "bob" 2 1 1 1 (fun _ _ => 2),
       Op.start_sync (fun _ _ => 0),
       Op.sync_round .random_walk [[1]],
       Op.connect "alice" 3 1 1 1 (fun _ _ => 1)] mInit).session.map
        fun s => decide (s.tpms.lookup "alice" = s.tpms.lookup "bob")) = some false := by
  with_unfolding_all decide

/-- Concrete instance of `claim_C1_amended`: the round that synchronizes two
`[[1]]` matrices reports `weights_match` and indeed ends with equal matrices. -/
theorem claim_C1_amended_witness :
    (syncRoundCore 1 1 1 .random_walk [[1]] [[1]] none [[1]]).data.weights_match = true ∧
    (syncRoundCore 1 1 1 .random_walk [[1]] [[1]] none [[1]]).wa
      = (syncRoundCore 1 1 1 .random_walk [[1]] [[1]] none [[1]]).wb :=
  ⟨by with_unfolding_all decide,
   claim_C1_amended.2 1 1 1 .random_walk [[1]] [[1]] none [[1]]
     (by with_unfolding_all decide)⟩

/-- **C3.** Evaluation of `ConnectionManager.disconnect` at the spec's
scenario-5 input: `alice` and `bob` are connected and the sync task runs;
`alice` disconnects (the task is cancelled and `user_left` is broadcast);
then `bob` disconnects.  Because no sync task is registered at that point,
the code skips the `user_left` broadcast and never deletes the now-empty
session from the registry, contradicting the specified disconnect behavior. -/
theorem claim_C3_disconnect_bug :
    ((runOps
      [Op.connect "alice" 1 1 1 1 (fun _ _ => 2),
       Op.connect "bob" 2 1 1 1 (fun _ _ => 2),
       Op.start_sync (fun _ _ => 0),
       Op.disconnect "alice",
       Op.disconnect "bob"] mInit).session.map fun s => s.participants) = some [] ∧
    Event.user_left "alice" ∈ (runOps
      [Op.connect "alice" 1 1 1 1 (fun _ _ => 2),
       Op.connect "bob" 2 1 1 1 (fun _ _ => 2),
       Op.start_sync (fun _ _ => 0),
       Op.disconnect "alice",
       Op.disconnect "bob"] mInit).events ∧
    Event.user_left "bob" ∉ (runOps
      [Op.connect "alice" 1 1 1 1 (fun _ _ => 2),
       Op.connect "bob" 2 1 1 1 (fun _ _ => 2),
       Op.start_sync (fun _ _ => 0),
       Op.disconnect "alice",
       Op.disconnect "bob"] mInit).events := by
  with_unfolding_all decide

/-- **C10.** A connect whose `user_id` is already a participant of a full
session is accepted without `SESSION_FULL`: the session stays, the user's
channel and TPM entries are replaced (the TPM by a freshly random-initialized
one), only `user_joined` and `session_info` frames are emitted, and
`is_synced` is left unchanged. -/
theorem claim_C10_reconnect (m : MState) (s : Session) (user : String) (chan : Nat)
    (k n l : Nat) (draws : Nat → Nat → Nat)
    (hs : m.session = some s) (hfull : 2 ≤ s.participants.length)
    (hmem : s.participants.lookup user ≠ none) :
    (stepOp (.connect user chan k n l draws) m).session
      = some { s with
          participants := dictSet user chan s.participants,
          tpms := dictSet user (initWeights s.tpm_k s.tpm_n s.tpm_l draws) s.tpms } ∧
    (stepOp (.connect user chan k n l draws) m).events
      = m.events ++ [.user_joined user (dictSet user chan s.participants).length,
          .session_info (dictSet user chan s.participants).length s.is_synced] ∧
    ((stepOp (.connect user chan k n l draws) m).session.map Session.is_synced)
      = some s.is_synced := by
  have hcond : ¬(2 ≤ s.participants.length ∧ s.participants.lookup user = none) := by
    intro hc
    exact hmem hc.2
  simp [stepOp, connectStep, hs, if_neg hcond, add_participant]

/-- Concrete instance of `claim_C10_reconnect`: in a synced full session,
`alice` reconnects; no `SESSION_FULL` is raised, her TPM is replaced by the
fresh `[[0]]` (differing from `bob`'s stored `[[1]]`) and `is_synced` stays
`true`. -/
theorem claim_C10_reconnect_witness :
    (2 ≤ ([("alice", 1), ("bob", 2)] : List (String × Nat)).length) ∧
    ([("alice", 1), ("bob", 2)] : List (String × Nat)).lookup "alice" ≠ none ∧
    ((stepOp (.connect "alice" 3 1 1 1 (fun _ _ => 1))
      ⟨some ⟨1, 1, 1, [("alice", 1), ("bob", 2)],
        [("alice", [[1]]), ("bob", [[1]])], 5, true, false,
        some (List.replicate 32 0), some (List.replicate 32 0), none, 0, true⟩,
        false, 0, []⟩).session.map Session.is_synced) = some true ∧
    initWeights 1 1 1 (fun _ _ => 1) ≠ [[1]] := by
  refine ⟨by decide, by decide, ?_, by decide⟩
  have h := (claim_C10_reconnect
    ⟨some ⟨1, 1, 1, [("alice", 1), ("bob", 2)],
      [("alice", [[1]]), ("bob", [[1]])], 5, true, false,
      some (List.replicate 32 0), some (List.replicate 32 0), none, 0, true⟩,
      false, 0, []⟩
    ⟨1, 1, 1, [("alice", 1), ("bob", 2)],
      [("alice", [[1]]), ("bob", [[1]])], 5, true, false,
      some (List.replicate 32 0), some (List.replicate 32 0), none, 0, true⟩
    "alice" 3 1 1 1 (fun _ _ => 1) rfl (by decide) (by decide)).2.2
  simpa using h

theorem sumAbsDiff_nonneg (Wa Wb : List (List Int)) : 0 ≤ sumAbsDiff Wa Wb := by
  unfold sumAbsDiff
  apply List.sum_nonneg
  intro x hx
  rcases exists_of_mem_zipWith hx with ⟨ra, _, rb, _, hxe⟩
  subst hxe
  apply List.sum_nonneg
  intro y hy
  rcases exists_of_mem_zipWith hy with ⟨a, _, b, _, hye⟩
  subst hye
  exact abs_nonneg _

theorem sumAbsDiff_le (K N : Nat) (L : Int) (Wa Wb : List (List Int))
    (da : Dims K N Wa) (db : Dims K N Wb)
    (ha : InRange L Wa) (hb : InRange L Wb) :
    sumAbsDiff Wa Wb ≤ (K : Int) * N * (2 * L) := by
  unfold sumAbsDiff
  have hrow : ∀ x ∈ List.zipWith
      (fun ra rb => (List.zipWith (fun a b => |a - b|) ra rb).sum) Wa Wb,
      x ≤ (N : Int) * (2 * L) := by
    intro x hx
    rcases exists_of_mem_zipWith hx with ⟨ra, hra, rb, hrb, hxe⟩
    subst hxe
    have hlen : (List.zipWith (fun a b => |a - b|) ra rb).length = N := by
      rw [List.length_zipWith, da.2 ra hra, db.2 rb hrb, min_self]
    calc (List.zipWith (fun a b => |a - b|) ra rb).sum
        ≤ (List.zipWith (fun a b => |a - b|) ra rb).length • (2 * L) := by
          apply List.sum_le_card_nsmul
          intro y hy
          rcases exists_of_mem_zipWith hy with ⟨a, hamem, b, hbmem, hye⟩
          subst hye
          have h1 := ha ra hra a hamem
          have h2 := hb rb hrb b hbmem
          rw [abs_le]
          omega
      _ = (N : Int) * (2 * L) := by rw [hlen]; simp [nsmul_eq_mul]
  have hlen2 : (List.zipWith
      (fun ra rb => (List.zipWith (fun a b => |a - b|) ra rb).sum) Wa Wb).length = K := by
    rw [List.length_zipWith, da.1, db.1, min_self]
  calc (List.zipWith (fun ra rb => (List.zipWith (fun a b => |a - b|) ra rb).sum) Wa Wb).sum
      ≤ (List.zipWith (fun ra rb =>
          (List.zipWith (fun a b => |a - b|) ra rb).sum) Wa Wb).length • ((N : Int) * (2 * L)) :=
        List.sum_le_card_nsmul _ _ hrow
    _ = (K : Int) * ((N : Int) * (2 * L)) := by rw [hlen2]; simp [nsmul_eq_mul]
    _ = (K : Int) * N * (2 * L) := by ring

theorem absRow_sum_eq_zero_iff :
    ∀ (ra rb : List Int), ra.length = rb.length →
      ((List.zipWith (fun a b => |a - b|) ra rb).sum = 0 ↔ ra = rb) := by
  intro ra
  induction ra with
  | nil =>
    intro rb h
    cases rb with
    | nil => simp
    | cons b bs => simp at h
  | cons a as ih =>
    intro rb h
    cases rb with
    | nil => simp at h
    | cons b bs =>
      simp only [List.zipWith_cons_cons, List.sum_cons]
      have hnn1 : (0 : Int) ≤ |a - b| := abs_nonneg _
      have hnn2 : (0 : Int) ≤ (List.zipWith (fun a b => |a - b|) as bs).sum := by
        apply List.sum_nonneg
        intro y hy
        rcases exists_of_mem_zipWith hy with ⟨u, _, v, _, hye⟩
        subst hye
        exact abs_nonneg _
      constructor
      · intro hsum
        have h1 : |a - b| = 0 ∧ (List.zipWith (fun a b => |a - b|) as bs).sum = 0 := by
          constructor <;> omega
        have hab : a = b := by
          have := abs_eq_zero.mp h1.1
          omega
        have htail : as = bs := (ih bs (by simpa using h)).mp h1.2
        rw [hab, htail]
      · intro he
        injection he with h1 h2
        rw [h1, (ih bs (by simpa using h)).mpr h2]
        simp

theorem sumAbsDiff_eq_zero_iff :
    ∀ (Wa Wb : List (List Int)), Wa.length = Wb.length →
      (∀ p ∈ List.zip Wa Wb, p.1.length = p.2.length) →
      (sumAbsDiff Wa Wb = 0 ↔ Wa = Wb) := by
  intro Wa
  induction Wa with
  | nil =>
    intro Wb h _
    cases Wb with
    | nil => simp [sumAbsDiff]
    | cons rb rbs => simp at h
  | cons ra ras ih =>
    intro Wb h hrows
    cases Wb with
    | nil => simp at h
    | cons rb rbs =>
      have hhead : ra.length = rb.length := hrows (ra, rb) (by simp [List.zip_cons_cons])
      have htails : ∀ p ∈ List.zip ras rbs, p.1.length = p.2.length := by
        intro p hp
        exact hrows p (by simp [List.zip_cons_cons, hp])
      unfold sumAbsDiff
      simp only [List.zipWith_cons_cons, List.sum_cons]
      have hnn1 : (0 : Int) ≤ (List.zipWith (fun a b => |a - b|) ra rb).sum := by
        apply List.sum_nonneg
        intro y hy
        rcases exists_of_mem_zipWith hy with ⟨u, _, v, _, hye⟩
        subst hye
        exact abs_nonneg _
      have hnn2 : (0 : Int) ≤ sumAbsDiff ras rbs := sumAbsDiff_nonneg ras rbs
      have hs : sumAbsDiff ras rbs = (List.zipWith
          (fun ra rb => (List.zipWith (fun a b => |a - b|) ra rb).sum) ras rbs).sum := rfl
      rw [← hs]
      constructor
      · intro hsum
        have h1 : (List.zipWith (fun a b => |a - b|) ra rb).sum = 0 ∧
            sumAbsDiff ras rbs = 0 := by constructor <;> omega
        have hh := (absRow_sum_eq_zero_iff ra rb hhead).mp h1.1
        have ht := (ih rbs (by simpa using h) htails).mp h1.2
        rw [hh, ht]
      · intro he
        injection he with h1 h2
        rw [(absRow_sum_eq_zero_iff ra rb hhead).mpr h1,
          (ih rbs (by simpa using h) htails).mpr h2]
        simp

theorem progressFormula_range (K N L : Nat) (hK : 0 < K) (hN : 0 < N) (hL : 0 < L)
    (Wa Wb : List (List Int)) (da : Dims K N Wa) (db : Dims K N Wb)
    (ha : InRange (L : Int) Wa) (hb : InRange (L : Int) Wb) :
    0 ≤ progressFormula K N L Wa Wb ∧ progressFormula K N L Wa Wb ≤ 1 := by
  unfold progressFormula
  have hM : (0 : Int) < (K : Int) * N * (2 * L) := by positivity
  rw [if_pos hM]
  have hMq : (0 : ℚ) < ((K : Int) * N * (2 * L) : Int) := by exact_mod_cast hM
  have hS0 : (0 : ℚ) ≤ (sumAbsDiff Wa Wb : ℚ) := by
    exact_mod_cast sumAbsDiff_nonneg Wa Wb
  have hSM : (sumAbsDiff Wa Wb : ℚ) ≤ ((K : Int) * N * (2 * L) : Int) := by
    exact_mod_cast sumAbsDiff_le K N L Wa Wb da db ha hb
  constructor
  · have : (sumAbsDiff Wa Wb : ℚ) / ((K : Int) * N * (2 * L) : Int) ≤ 1 :=
      (div_le_one hMq).mpr hSM
    push_cast at this ⊢
    linarith
  · have : (0 : ℚ) ≤ (sumAbsDiff Wa Wb : ℚ) / ((K : Int) * N * (2 * L) : Int) :=
      div_nonneg hS0 (le_of_lt hMq)
    push_cast at this ⊢
    linarith

theorem progressFormula_eq_one_iff (K N L : Nat) (hK : 0 < K) (hN : 0 < N) (hL : 0 < L)
    (Wa Wb : List (List Int)) (da : Dims K N Wa) (db : Dims K N Wb) :
    (progressFormula K N L Wa Wb = 1 ↔ Wa = Wb) := by
  unfold progressFormula
  have hM : (0 : Int) < (K : Int) * N * (2 * L) := by positivity
  rw [if_pos hM]
  have hMq : (0 : ℚ) < ((K : Int) * N * (2 * L) : Int) := by exact_mod_cast hM
  have hzero : sumAbsDiff Wa Wb = 0 ↔ Wa = Wb := by
    apply sumAbsDiff_eq_zero_iff Wa Wb (da.1.trans db.1.symm)
    intro p hp
    have hpa := List.of_mem_zip hp
    rw [da.2 p.1 hpa.1, db.2 p.2 hpa.2]
  constructor
  · intro h1
    have : (sumAbsDiff Wa Wb : ℚ) / ((K : Int) * N * (2 * L) : Int) = 0 := by linarith
    have hS : (sumAbsDiff Wa Wb : ℚ) = 0 := by
      rcases div_eq_zero_iff.mp this with h | h
      · exact h
      · exact absurd h (ne_of_gt hMq)
    exact hzero.mp (by exact_mod_cast hS)
  · intro he
    have hS : sumAbsDiff Wa Wb = 0 := hzero.mpr he
    rw [hS]
    simp

theorem syncRoundCore_progress_link (K N L : Nat) (rule : LearningRule)
    (Wa Wb : List (List Int)) (att : Option (List (List Int))) (X : List (List Int)) :
    (syncRoundCore K N L rule Wa Wb att X).data.progress
      = progressFormula K N L (syncRoundCore K N L rule Wa Wb att X).wa
          (syncRoundCore K N L rule Wa Wb att X).wb := by
  unfold syncRoundCore
  dsimp only
  split
  · rfl
  · rename_i hc
    rw [endgameAssist_noop _ _ _ _ _ _ _ _ _ _ _ hc]

/-- **C7 (counterexample).** `NeuralSyncProtocol.run_round` (`sync.py`)
reports a *blended* progress (`0.3·agreement_rate + 0.7·mean-similarity`,
capped at 0.99), not the claimed formula: at `(K, N, L) = (1, 2, 3)` with
weights `[[1,0]]`, `[[0,1]]` and input `[[1,1]]` it reports `53/60` while
`1 − Σ|A−B|/(K·N·2L)` on the resulting weights is `5/6`. -/
theorem claim_C7_counterexample :
    (run_round 1 2 3 .hebbian ⟨0, 0, false⟩ [[1, 0]] [[0, 1]] [[1, 1]]).2.2.2.sync_progress
      ≠ progressFormula 1 2 3
          (run_round 1 2 3 .hebbian ⟨0, 0, false⟩ [[1, 0]] [[0, 1]] [[1, 1]]).2.1
          (run_round 1 2 3 .hebbian ⟨0, 0, false⟩ [[1, 0]] [[0, 1]] [[1, 1]]).2.2.1 := by
  with_unfolding_all decide

/-- **C7 (amended).** In the coordinator's sync loop the reported progress
equals `1 − Σ|A.W − B.W|/(K·N·2L)` on the current (post-round) weight
matrices; that formula lies in `[0, 1]` for in-range matrices and equals `1`
exactly when the matrices are equal; and the round's `attacker_progress` is
the same formula applied against `A`'s post-update weights.
(`NeuralSyncProtocol.run_round` reports a different, blended metric; see the
counterexample.) -/
theorem claim_C7_amended (K N L : Nat) (rule : LearningRule) (Wa Wb : List (List Int))
    (att : Option (List (List Int))) (X : List (List Int))
    (hK : 0 < K) (hN : 0 < N) (hL : 0 < L) :
    ((syncRoundCore K N L rule Wa Wb att X).data.progress
      = progressFormula K N L (syncRoundCore K N L rule Wa Wb att X).wa
          (syncRoundCore K N L rule Wa Wb att X).wb) ∧
    (∀ Va Vb, Dims K N Va → Dims K N Vb →
      InRange (L : Int) Va → InRange (L : Int) Vb →
      0 ≤ progressFormula K N L Va Vb ∧ progressFormula K N L Va Vb ≤ 1) ∧
    (∀ Va Vb, Dims K N Va → Dims K N Vb →
      (progressFormula K N L Va Vb = 1 ↔ Va = Vb)) ∧
    (∀ We, (syncRoundCore K N L rule Wa Wb (some We) X).data.attacker_progress
      = some (progressFormula K N L
          (if (compute_output Wa X).1 = (compute_output Wb X).1 then
            (update_weights (L : Int) We X (compute_output We X).1 (compute_output Wa X).1
              (compute_output We X).2 rule).2
           else We)
          (update_weights (L : Int) Wa X (compute_output Wa X).1 (compute_output Wb X).1
            (compute_output Wa X).2 rule).2)) :=
  ⟨syncRoundCore_progress_link K N L rule Wa Wb att X,
   fun Va Vb da db ha hb => progressFormula_range K N L hK hN hL Va Vb da db ha hb,
   fun Va Vb da db => progressFormula_eq_one_iff K N L hK hN hL Va Vb da db,
   fun We => rfl⟩

/-- Concrete instance of `claim_C7_amended` at `(K, N, L) = (1, 2, 3)`. -/
theorem claim_C7_amended_witness :
    (0 < 1 ∧ Dims 1 2 ([[1, 0]] : List (List Int)) ∧ InRange 3 [[1, 0]]) ∧
    (0 ≤ progressFormula 1 2 3 [[1, 0]] [[0, 1]] ∧
      progressFormula 1 2 3 [[1, 0]] [[0, 1]] ≤ 1) ∧
    (progressFormula 1 2 3 [[1, 0]] [[0, 1]] = 1 ↔
      ([[1, 0]] : List (List Int)) = [[0, 1]]) := by
  refine ⟨⟨by decide, by decide, by decide⟩, ?_, ?_⟩
  · exact (claim_C7_amended 1 2 3 .hebbian [[1, 0]] [[0, 1]] none [[1, 1]]
      (by decide) (by decide) (by decide)).2.1 [[1, 0]] [[0, 1]]
      (by decide) (by decide) (by decide) (by decide)
  · exact (claim_C7_amended 1 2 3 .hebbian [[1, 0]] [[0, 1]] none [[1, 1]]
      (by decide) (by decide) (by decide)).2.2.1 [[1, 0]] [[0, 1]]
      (by decide) (by decide)

theorem b64dec_enc (d : Nat) (h : d < 64) : b64dec (b64enc d) = some d := by
  have hall : ∀ x ∈ List.range 64, b64dec (b64enc x) = some x := by decide
  exact hall d (List.mem_range.mpr h)

theorem b64enc_ne_61 (d : Nat) (h : d < 64) : b64enc d ≠ 61 := by
  have hall : ∀ x ∈ List.range 64, b64enc x ≠ 61 := by decide
  exact hall d (List.mem_range.mpr h)

theorem b64_roundtrip : ∀ (bs : List Nat), (∀ b ∈ bs, b < 256) →
    b64decode (b64encode bs) = some bs
  | [], _ => rfl
  | [a], h => by
    have ha : a < 256 := h a (by simp)
    have h1 : a / 4 < 64 := by omega
    have h2 : a % 4 * 16 < 64 := by omega
    simp only [b64encode, b64decode, b64dec_enc _ h1, b64dec_enc _ h2]
    simp
    omega
  | [a, b], h => by
    have ha : a < 256 := h a (by simp)
    have hb : b < 256 := h b (by simp)
    have h1 : a / 4 < 64 := by omega
    have h2 : a % 4 * 16 + b / 16 < 64 := by omega
    have h3 : b % 16 * 4 < 64 := by omega
    simp only [b64encode, b64decode, b64dec_enc _ h1, b64dec_enc _ h2, b64dec_enc _ h3]
    simp [b64enc_ne_61 _ h3]
    omega
  | a :: b :: c :: rest, h => by
    have ha : a < 256 := h a (by simp)
    have hb : b < 256 := h b (by simp)
    have hc : c < 256 := h c (by simp)
    have h1 : a / 4 < 64 := by omega
    have h2 : a % 4 * 16 + b / 16 < 64 := by omega
    have h3 : b % 16 * 4 + c / 64 < 64 := by omega
    have h4 : c % 64 < 64 := by omega
    have ih := b64_roundtrip rest fun x hx => h x (by simp [hx])
    simp only [b64encode, b64decode, b64dec_enc _ h1, b64dec_enc _ h2, b64dec_enc _ h3,
      b64dec_enc _ h4]
    simp [b64enc_ne_61 _ h3, b64enc_ne_61 _ h4, ih]
    omega

theorem xor_byte_lt {a b : Nat} (ha : a < 256) (hb : b < 256) : a ^^^ b < 256 := by
  have h := Nat.xor_lt_two_pow (n := 8) (by simpa using ha) (by simpa using hb)
  simpa using h

theorem allB_getD (l : List Nat) (h : AllB l) (i : Nat) : l.getD i 0 < 256 := by
  rcases getD_mem_or l i 0 with hm | hd
  · exact h _ hm
  · rw [hd]; omega

set_option maxRecDepth 4000 in
theorem allB_sbox : AllB sbox := by decide

theorem subByte_lt (b : Nat) : subByte b < 256 := allB_getD sbox allB_sbox b

theorem allB_subBytes (s : List Nat) : AllB (subBytes s) := by
  intro b hb
  rcases List.mem_map.mp hb with ⟨x, _, hx⟩
  rw [← hx]
  exact subByte_lt x

theorem allB_shiftRows (s : List Nat) (h : AllB s) : AllB (shiftRows s) := by
  intro b hb
  rcases List.mem_map.mp hb with ⟨i, _, hi⟩
  rw [← hi]
  exact allB_getD s h i

theorem xtime_lt (x : Nat) : xtime x < 256 := Nat.mod_lt _ (by omega)

theorem allB_mixColumn (s : List Nat) (h : AllB s) (c : Nat) : AllB (mixColumn s c) := by
  have g := allB_getD s h
  intro b hb
  simp only [mixColumn, List.mem_cons, List.not_mem_nil, or_false] at hb
  rcases hb with hb | hb | hb | hb <;> subst hb <;>
    repeat' first
      | apply xor_byte_lt
      | exact xtime_lt _
      | exact g _

theorem allB_mixColumns (s : List Nat) (h : AllB s) : AllB (mixColumns s) := by
  intro b hb
  simp only [mixColumns, List.mem_append] at hb
  rcases hb with ((hb | hb) | hb) | hb
  · exact allB_mixColumn s h 0 b hb
  · exact allB_mixColumn s h 1 b hb
  · exact allB_mixColumn s h 2 b hb
  · exact allB_mixColumn s h 3 b hb

theorem allB_xorBytes (xs ys : List Nat) (hx : AllB xs) (hy : AllB ys) :
    AllB (xorBytes xs ys) := by
  intro b hb
  rcases exists_of_mem_zipWith hb with ⟨x, hxm, y, hym, he⟩
  rw [he]
  exact xor_byte_lt (hx x hxm) (hy y hym)

theorem allB_take (l : List Nat) (h : AllB l) (n : Nat) : AllB (l.take n) :=
  fun b hb => h b (List.mem_of_mem_take hb)

theorem allB_drop (l : List Nat) (h : AllB l) (n : Nat) : AllB (l.drop n) :=
  fun b hb => h b (List.mem_of_mem_drop hb)

theorem rconV_lt (i : Nat) : rconV i < 256 := by
  unfold rconV
  rcases getD_mem_or [0, 1, 2, 4, 8, 16, 32, 64] i 0 with hm | hd
  · have hall : ∀ x ∈ [0, 1, 2, 4, 8, 16, 32, 64], x < 256 := by decide
    exact hall _ hm
  · rw [hd]; omega

theorem allB_nextWord (key : List Nat) (ws : List (List Nat)) (i : Nat)
    (hk : AllB key) (hws : ∀ w ∈ ws, AllB w) : AllB (nextWord key ws i) := by
  have hgw : ∀ j, AllB (ws.getD j []) := by
    intro j
    rcases getD_mem_or ws j [] with hm | hd
    · exact hws _ hm
    · rw [hd]; intro b hb; simp at hb
  unfold nextWord
  split
  · exact allB_take _ (allB_drop key hk _) 4
  · split
    · refine allB_xorBytes _ _ (hgw _) (allB_xorBytes _ _ ?_ ?_)
      · intro b hb
        rcases List.mem_map.mp hb with ⟨x, _, hx⟩
        rw [← hx]
        exact subByte_lt x
      · intro b hb
        simp only [List.mem_cons, List.not_mem_nil, or_false] at hb
        rcases hb with hb | hb | hb | hb <;> subst hb
        · exact rconV_lt _
        · omega
        · omega
        · omega
    · split
      · refine allB_xorBytes _ _ (hgw _) ?_
        intro b hb
        rcases List.mem_map.mp hb with ⟨x, _, hx⟩
        rw [← hx]
        exact subByte_lt x
      · exact allB_xorBytes _ _ (hgw _) (hgw _)

theorem allB_keyWordsAux (key : List Nat) (hk : AllB key) :
    ∀ n, ∀ w ∈ keyWordsAux key n, AllB w := by
  intro n
  induction n with
  | zero => intro w hw; simp [keyWordsAux] at hw
  | succ n ih =>
    intro w hw
    simp only [keyWordsAux, List.mem_append, List.mem_singleton] at hw
    rcases hw with hw | hw
    · exact ih w hw
    · subst hw
      exact allB_nextWord key _ n hk ih

theorem allB_roundKey (key : List Nat) (hk : AllB key) (r : Nat) :
    AllB (roundKey (keyWords key) r) := by
  intro b hb
  unfold roundKey at hb
  rcases List.mem_flatten.mp hb with ⟨w, hw, hbw⟩
  have hw' : w ∈ keyWords key := List.mem_of_mem_drop (List.mem_of_mem_take hw)
  exact allB_keyWordsAux key hk 60 w hw' b hbw

theorem allB_aesRounds (key s : List Nat) (hk : AllB key) (hs : AllB s) :
    ∀ r, AllB (aesRounds (keyWords key) s r) := by
  intro r
  induction r with
  | zero => exact hs
  | succ r ih =>
    exact allB_xorBytes _ _
      (allB_mixColumns _ (allB_shiftRows _ (allB_subBytes _)))
      (allB_roundKey key hk (r + 1))

theorem allB_aesBlock (key block : List Nat) (hk : AllB key) (hb : AllB block) :
    AllB (aesBlock key block) := by
  unfold aesBlock
  exact allB_xorBytes _ _
    (allB_shiftRows _ (allB_subBytes _))
    (allB_roundKey key hk 14)

theorem allB_natToBytesBE (len n : Nat) : AllB (natToBytesBE len n) := by
  intro b hb
  rcases List.mem_map.mp hb with ⟨i, _, hi⟩
  rw [← hi]
  exact Nat.mod_lt _ (by omega)

theorem allB_gcmKeystream (key nonce : List Nat) (len : Nat)
    (hk : AllB key) (hn : AllB nonce) : AllB (gcmKeystream key nonce len) := by
  intro b hb
  rcases List.mem_map.mp hb with ⟨i, _, hi⟩
  rw [← hi]
  apply allB_getD
  apply allB_aesBlock key _ hk
  intro x hx
  rcases List.mem_append.mp hx with hx | hx
  · exact hn x hx
  · exact allB_natToBytesBE 4 _ x hx

theorem allB_gcmTag (key nonce ct : List Nat) : AllB (gcmTag key nonce ct) :=
  allB_natToBytesBE 16 _

theorem allB_wordBytesBE (w : Nat) : AllB (wordBytesBE w) := by
  intro b hb
  simp only [wordBytesBE, List.mem_cons, List.not_mem_nil, or_false] at hb
  rcases hb with h | h | h | h <;> subst h <;> exact Nat.mod_lt _ (by omega)

theorem allB_sha256 (msg : List Nat) : AllB (sha256 msg) := by
  intro b hb
  unfold sha256 at hb
  simp only [List.mem_append] at hb
  rcases hb with ((((((hb | hb) | hb) | hb) | hb) | hb) | hb) | hb <;>
    exact allB_wordBytesBE _ b hb

theorem allB_cipherKey (k : List Nat) (hk : AllB k) : AllB (cipherKey k) := by
  unfold cipherKey
  split
  · exact allB_take _ (allB_sha256 k) 32
  · exact allB_take _ hk 32

theorem gcmKeystream_length (key nonce : List Nat) (len : Nat) :
    (gcmKeystream key nonce len).length = len := by
  simp [gcmKeystream]

theorem xorBytes_length (xs ys : List Nat) :
    (xorBytes xs ys).length = min xs.length ys.length := by
  simp [xorBytes]

theorem gcmTag_length (key nonce ct : List Nat) : (gcmTag key nonce ct).length = 16 := by
  simp [gcmTag, natToBytesBE]

theorem take_len_append : ∀ (l₁ l₂ : List α), (l₁ ++ l₂).take l₁.length = l₁ := by
  intro l₁ l₂
  induction l₁ with
  | nil => rfl
  | cons a as ih => simp [ih]

theorem drop_len_append : ∀ (l₁ l₂ : List α), (l₁ ++ l₂).drop l₁.length = l₂ := by
  intro l₁ l₂
  induction l₁ with
  | nil => rfl
  | cons a as ih => simp [ih]

theorem drop_len_add_append : ∀ (l₁ l₂ : List α) (k : Nat),
    (l₁ ++ l₂).drop (l₁.length + k) = l₂.drop k := by
  intro l₁ l₂ k
  induction l₁ with
  | nil => simp
  | cons a as ih => simpa [Nat.succ_add] using ih

theorem xorBytes_cancel : ∀ (xs ys : List Nat), xs.length = ys.length →
    xorBytes (xorBytes xs ys) ys = xs := by
  intro xs
  induction xs with
  | nil => intro ys h; cases ys <;> simp [xorBytes] at h ⊢
  | cons x xs ih =>
    intro ys h
    cases ys with
    | nil => simp at h
    | cons y ys =>
      simp only [xorBytes, List.zipWith_cons_cons] at *
      rw [Nat.xor_cancel_right, ih ys (by simpa using h)]

/-- **C6.** For every key, nonce and UTF-8 message (strings represented by
their UTF-8 byte sequences): decrypting an encryption made with a cipher
built from the same key returns the message, and the ciphertext blob decodes
as `base64(nonce[12] ‖ tag[16] ‖ ct)` with `|ct| = |m|`. -/
theorem claim_C6_cipher_roundtrip (k nonce msg : List Nat)
    (hk : AllB k) (hn12 : nonce.length = 12) (hnb : AllB nonce) (hmb : AllB msg) :
    decrypt (cipherKey k) (encrypt (cipherKey k) nonce msg) = some msg ∧
    b64decode (encrypt (cipherKey k) nonce msg)
      = some (nonce ++
          gcmTag (cipherKey k) nonce
            (xorBytes msg (gcmKeystream (cipherKey k) nonce msg.length)) ++
          xorBytes msg (gcmKeystream (cipherKey k) nonce msg.length)) ∧
    (gcmTag (cipherKey k) nonce
      (xorBytes msg (gcmKeystream (cipherKey k) nonce msg.length))).length = 16 ∧
    (xorBytes msg (gcmKeystream (cipherKey k) nonce msg.length)).length = msg.length := by
  have hck : AllB (cipherKey k) := allB_cipherKey k hk
  have hksb : AllB (gcmKeystream (cipherKey k) nonce msg.length) :=
    allB_gcmKeystream _ nonce _ hck hnb
  have hksl : (gcmKeystream (cipherKey k) nonce msg.length).length = msg.length :=
    gcmKeystream_length _ nonce msg.length
  have hctb : AllB (xorBytes msg (gcmKeystream (cipherKey k) nonce msg.length)) :=
    allB_xorBytes _ _ hmb hksb
  have hctl : (xorBytes msg (gcmKeystream (cipherKey k) nonce msg.length)).length
      = msg.length := by
    rw [xorBytes_length, hksl, min_self]
  have htb : AllB (gcmTag (cipherKey k) nonce
      (xorBytes msg (gcmKeystream (cipherKey k) nonce msg.length))) := allB_gcmTag _ _ _
  have htl := gcmTag_length (cipherKey k) nonce
    (xorBytes msg (gcmKeystream (cipherKey k) nonce msg.length))
  have hcomb : AllB (nonce ++
      gcmTag (cipherKey k) nonce
        (xorBytes msg (gcmKeystream (cipherKey k) nonce msg.length)) ++
      xorBytes msg (gcmKeystream (cipherKey k) nonce msg.length)) := by
    intro b hb
    rcases List.mem_append.mp hb with hb | hb
    · rcases List.mem_append.mp hb with hb | hb
      · exact hnb b hb
      · exact htb b hb
    · exact hctb b hb
  have henc : encrypt (cipherKey k) nonce msg
      = b64encode (nonce ++
          gcmTag (cipherKey k) nonce
            (xorBytes msg (gcmKeystream (cipherKey k) nonce msg.length)) ++
          xorBytes msg (gcmKeystream (cipherKey k) nonce msg.length)) := rfl
  have hdec := b64_roundtrip _ hcomb
  rw [← henc] at hdec
  have hassoc : nonce ++
      gcmTag (cipherKey k) nonce
        (xorBytes msg (gcmKeystream (cipherKey k) nonce msg.length)) ++
      xorBytes msg (gcmKeystream (cipherKey k) nonce msg.length)
      = nonce ++
        (gcmTag (cipherKey k) nonce
          (xorBytes msg (gcmKeystream (cipherKey k) nonce msg.length)) ++
        xorBytes msg (gcmKeystream (cipherKey k) nonce msg.length)) := by
    rw [List.append_assoc]
  refine ⟨?_, hdec, htl, hctl⟩
  have hdec' := hdec
  rw [hassoc] at hdec'
  unfold decrypt
  rw [hdec']
  dsimp only
  have htake12 : (nonce ++
      (gcmTag (cipherKey k) nonce
        (xorBytes msg (gcmKeystream (cipherKey k) nonce msg.length)) ++
      xorBytes msg (gcmKeystream (cipherKey k) nonce msg.length))).take 12 = nonce := by
    rw [← hn12, take_len_append]
  have hdrop12 : (nonce ++
      (gcmTag (cipherKey k) nonce
        (xorBytes msg (gcmKeystream (cipherKey k) nonce msg.length)) ++
      xorBytes msg (gcmKeystream (cipherKey k) nonce msg.length))).drop 12
      = gcmTag (cipherKey k) nonce
          (xorBytes msg (gcmKeystream (cipherKey k) nonce msg.length)) ++
        xorBytes msg (gcmKeystream (cipherKey k) nonce msg.length) := by
    rw [← hn12, drop_len_append]
  have hdrop28 : (nonce ++
      (gcmTag (cipherKey k) nonce
        (xorBytes msg (gcmKeystream (cipherKey k) nonce msg.length)) ++
      xorBytes msg (gcmKeystream (cipherKey k) nonce msg.length))).drop 28
      = xorBytes msg (gcmKeystream (cipherKey k) nonce msg.length) := by
    have h28 : 28 = nonce.length + 16 := by omega
    rw [h28, drop_len_add_append, ← htl, drop_len_append]
  rw [htake12, hdrop12, hdrop28, ← htl, take_len_append]
  unfold gcmDecryptVerify
  rw [if_pos rfl, hctl, xorBytes_cancel msg _ hksl.symm]

/-- Concrete instance of `claim_C6_cipher_roundtrip`: a 32-byte key of sevens,
a zero nonce, and the UTF-8 bytes of `"hi!"`. -/
theorem claim_C6_cipher_roundtrip_witness :
    (AllB (List.replicate 32 7) ∧ (List.replicate 12 0 : List Nat).length = 12 ∧
      AllB (List.replicate 12 0) ∧ AllB [104, 105, 33]) ∧
    decrypt (cipherKey (List.replicate 32 7))
      (encrypt (cipherKey (List.replicate 32 7)) (List.replicate 12 0) [104, 105, 33])
      = some [104, 105, 33] := by
  refine ⟨⟨by decide, by decide, by decide, by decide⟩, ?_⟩
  exact (claim_C6_cipher_roundtrip (List.replicate 32 7) (List.replicate 12 0)
    [104, 105, 33] (by decide) (by decide) (by decide) (by decide)).1

end Nexus
